import Mathlib

/-!
The job-control core of tsh.

A shallow embedding of `src/tsh.c` (the embedding of `src/queue.c` follows it).

* The State Store is the pair of globals `g_runningPid` / `g_suspendedPid`.
* Signal handlers and builtins are functions on the store that also return
  what they print and which system calls they make (`sigchld_handler`,
  `sigint_handler`, `sigtstp_handler`, `builtin_command`, `evalArgs`).  The
  relays and the `fg` branch of `builtin_command` read the globals statement
  by statement and take as an argument what the Reaper collects in between.
* The statements of `eval`'s foreground path, of the `fg` builtin and of
  `waitfg` are then given a program-counter machine (`Machine`) in which a
  pending, unblocked SIGCHLD may run the Reaper between any two statements
  of the main thread.
* `World` adds the kernel's table of live children, so that event sequences
  respect what `fork` can return.
-/

namespace Tsh

/-! ## Data model -/

/-- The two globals of `tsh.c` (`g_runningPid`, `g_suspendedPid`); `0` is the
absent sentinel. -/
structure Store where
  g_runningPid : Int
  g_suspendedPid : Int
deriving DecidableEq, Repr

/-- Initial values of the globals (`= 0` at their definitions). -/
def Store.init : Store := ⟨0, 0⟩

/-- Outcome of the tests `WIFEXITED`, `WIFSIGNALED`, `WIFSTOPPED` on the status
word filled in by `waitpid`, tried in that order as `sigchld_handler` does,
together with the number extracted by `WTERMSIG` / `WSTOPSIG`.  `other` is a
status word on which none of the three tests holds. -/
inductive WaitStatus where
  | exited (code : Int)
  | signaled (termsig : Int)
  | stopped (stopsig : Int)
  | other
deriving DecidableEq, Repr

/-- The signals the shell itself sends. -/
inductive Sig where
  | SIGINT
  | SIGTSTP
  | SIGCONT
deriving DecidableEq, Repr

/-- System calls and library calls made by the synchronous code and the
relays, in program order. -/
inductive Effect where
  | kill (target : Int) (sig : Sig)
  | printf (text : String)
  | fprintfStderr (text : String)
  | blockSigchld
  | restoreMask
  | fork (result : Int)
  | execve (argv : List String)
  | setpgid (pid pgid : Int)
  | waitfg (pid : Int)
  | exit (code : Int)
deriving DecidableEq, Repr

/-! ## Asynchronous Reaper -/

/-- The line printed for a child killed by a signal. -/
def terminatedMsg (pid sig : Int) : String :=
  "Job (" ++ toString pid ++ ") terminated by signal " ++ toString sig ++ "\n"

/-- The line printed for a child stopped by a signal. -/
def stoppedMsg (pid sig : Int) : String :=
  "Job (" ++ toString pid ++ ") stopped by signal " ++ toString sig ++ "\n"

/-- Body of the `while` loop of `sigchld_handler` for one collected child:
the new store and the lines printed. -/
def reapOne (st : Store) (pid : Int) (status : WaitStatus) : Store × List String :=
  match status with
  | WaitStatus.exited _ =>
    if pid = st.g_runningPid then
      ({ st with g_runningPid := 0 }, [])
    else (st, [])
  | WaitStatus.signaled sig =>
    if pid = st.g_runningPid then
      ({ st with g_runningPid := 0 }, [terminatedMsg pid sig])
    else (st, [terminatedMsg pid sig])
  | WaitStatus.stopped sig =>
    if pid = st.g_runningPid then
      ({ g_runningPid := 0, g_suspendedPid := st.g_runningPid }, [stoppedMsg pid sig])
    else (st, [stoppedMsg pid sig])
  | WaitStatus.other => (st, [])

/-- The Reaper.  `results` are the values successive calls
`waitpid(-1, &status, WNOHANG | WUNTRACED)` return; the loop runs while the
returned pid is positive, and an exhausted list stands for a return value
that is not positive. -/
def sigchld_handler (results : List (Int × WaitStatus)) (st : Store) :
    Store × List String :=
  match results with
  | [] => (st, [])
  | (pid, status) :: rest =>
    if pid > 0 then
      let r := reapOne st pid status
      let r2 := sigchld_handler rest r.1
      (r2.1, r.2 ++ r2.2)
    else (st, [])

/-! ## Interactive Signal Relays -/

/-- Relay for ctrl-c.  The handler reads `g_runningPid` twice, for the test of
line 464 and for the argument of `kill` at line 466, and it is installed with
an empty `sa_mask`, so SIGCHLD can be delivered between the two reads:
`between` is what the Reaper collects there, empty when no SIGCHLD is
delivered.  The result is the store at the end and the calls made, the lines
printed by the Reaper included. -/
def sigint_handler (st : Store) (between : List (Int × WaitStatus)) : Store × List Effect :=
  if st.g_runningPid ≠ 0 then
    let r := sigchld_handler between st
    (r.1, r.2.map Effect.printf ++ [Effect.kill (-r.1.g_runningPid) Sig.SIGINT])
  else (st, [])

/-- Relay for ctrl-z, with the two reads of `g_runningPid` at lines 480 and
482 and `between` as in `sigint_handler`. -/
def sigtstp_handler (st : Store) (between : List (Int × WaitStatus)) : Store × List Effect :=
  if st.g_runningPid ≠ 0 then
    let r := sigchld_handler between st
    (r.1, r.2.map Effect.printf ++ [Effect.kill (-r.1.g_runningPid) Sig.SIGTSTP])
  else (st, [])

/-! ## Command Evaluator -/

/-- Result of running a piece of synchronous code: the store, the calls made
in order, and the value returned (`none` when the code called `exit` or never
returns into the shell). -/
structure Run where
  store : Store
  effects : List Effect
  ret : Option Int
deriving DecidableEq, Repr

/-- What the Reaper collects when SIGCHLD is delivered between the statements
of the `fg` branch of `builtin_command`, which runs with SIGCHLD unblocked:
right before line 358, 359, 360 and 361.  A field is empty when no SIGCHLD is
delivered at that point. -/
structure FgReaps where
  before358 : List (Int × WaitStatus)
  before359 : List (Int × WaitStatus)
  before360 : List (Int × WaitStatus)
  before361 : List (Int × WaitStatus)
deriving DecidableEq, Repr

/-- No SIGCHLD is delivered while the `fg` branch runs. -/
def FgReaps.quiet : FgReaps := ⟨[], [], [], []⟩

/-- The builtin dispatcher, on `argv[0]`.  In the `fg` branch every statement
reads the globals anew (line 356 tests `g_suspendedPid`, line 358 negates it,
line 359 copies it, line 360 clears it, line 361 reads `g_runningPid`), and
the Reaper may run in between as `reaps` says; its lines are among the calls
returned. -/
def builtin_command (argv0 : String) (st : Store) (reaps : FgReaps) : Run :=
  if argv0 = "quit" then
    ⟨st, [Effect.exit 0], none⟩
  else if argv0 = "fg" then
    if st.g_suspendedPid ≠ 0 then
      let r1 := sigchld_handler reaps.before358 st
      let kill := Effect.kill (-r1.1.g_suspendedPid) Sig.SIGCONT
      let r2 := sigchld_handler reaps.before359 r1.1
      let st2 : Store := { r2.1 with g_runningPid := r2.1.g_suspendedPid }
      let r3 := sigchld_handler reaps.before360 st2
      let st3 : Store := { r3.1 with g_suspendedPid := 0 }
      let r4 := sigchld_handler reaps.before361 st3
      ⟨r4.1,
        r1.2.map Effect.printf ++ [kill] ++ r2.2.map Effect.printf ++ r3.2.map Effect.printf
          ++ r4.2.map Effect.printf ++ [Effect.waitfg r4.1.g_runningPid],
        some 1⟩
    else ⟨st, [], some 1⟩
  else ⟨st, [], some 0⟩

/-- The wrapper `Fork`: a negative result of `fork` goes to `unix_error`,
which prints and exits with status 1. -/
def Fork (result : Int) (errText : String) : List Effect × Option Int :=
  if result < 0 then
    ([Effect.fork result, Effect.printf ("Fork error: " ++ errText ++ "\n"), Effect.exit 1], none)
  else ([Effect.fork result], some result)

/-- The evaluator after `parseline` has filled `argv` and returned `bg`, in a
run during which no signal handler runs (the interleavings of its foreground
path are those of `Machine`).  `forkResult` is what `fork` returns in the
process being followed (positive in the shell, `0` in the new child),
`execFails` whether `execve` returns. -/
def evalArgs (argv : List String) (bg : Bool) (cmdline : String)
    (forkResult : Int) (errText : String) (execFails : Bool) (st : Store) : Run :=
  match argv with
  | [] => ⟨st, [], some 0⟩
  | argv0 :: _ =>
    let b := builtin_command argv0 st FgReaps.quiet
    match b.ret with
    | none => b
    | some r =>
      if r ≠ 0 then ⟨b.store, b.effects, some 0⟩
      else
        let f := Fork forkResult errText
        let pre := b.effects ++ [Effect.blockSigchld] ++ f.1
        match f.2 with
        | none => ⟨b.store, pre, none⟩
        | some pid =>
          if pid = 0 then
            let child := [Effect.restoreMask, Effect.execve argv]
            if execFails then
              ⟨b.store, pre ++ child ++
                [Effect.fprintfStderr (argv0 ++ ": Command not found\n"), Effect.exit 0], none⟩
            else ⟨b.store, pre ++ child, none⟩
          else if !bg then
            let st1 : Store := { b.store with g_runningPid := pid }
            ⟨st1, pre ++ [Effect.restoreMask, Effect.setpgid pid pid,
              Effect.waitfg st1.g_runningPid], some 0⟩
          else
            ⟨b.store, pre ++ [Effect.restoreMask,
              Effect.printf ("(" ++ toString pid ++ ") " ++ cmdline),
              Effect.setpgid pid pid], some 0⟩

/-! ## Event sequences over the kernel's child table -/

/-- The shell together with what the kernel knows of its children.  `live`
are the children that exist and have not terminated, `reaped` the pids the
Reaper has collected as exited or killed and that `fork` has not handed out
again since, `waiting` the argument of the `waitfg` call the main thread is
in, if any. -/
structure World where
  store : Store
  live : List Int
  reaped : List Int
  waiting : Option Int
deriving DecidableEq, Repr

/-- The shell at start-up: no children. -/
def World.init : World := ⟨Store.init, [], [], none⟩

/-- What can happen to the shell: a command line is evaluated (`forkPid` is
what `fork` returns to the shell if the command is not a builtin), or the
Reaper collects one child. -/
inductive Event where
  | command (argv : List String) (bg : Bool) (forkPid : Int)
  | reap (pid : Int) (status : WaitStatus)
deriving DecidableEq, Repr

/-- The pid of the last `waitfg` call among the effects, if any. -/
def lastWaitfg : List Effect → Option Int
  | [] => none
  | Effect.waitfg p :: rest =>
    match lastWaitfg rest with
    | some q => some q
    | none => some p
  | _ :: rest => lastWaitfg rest

/-- Whether the effects contain a `fork`. -/
def hasFork : List Effect → Bool
  | [] => false
  | Effect.fork _ :: _ => true
  | _ :: rest => hasFork rest

/-- The main thread is back in the read loop: it is in no `waitfg` call, or the
loop condition `pid == g_runningPid` of that call is false. -/
def World.atPrompt (w : World) : Bool :=
  match w.waiting with
  | none => true
  | some p => decide (p ≠ w.store.g_runningPid)

/-- One event.  A command is read only at the prompt; `fork` returns to the
shell a positive pid that no existing child has; the Reaper collects only
children that exist, and a child collected as exited or killed exists no
more.  `none` when the event cannot happen, or the shell exits. -/
def World.step (w : World) : Event → Option World
  | Event.command argv bg forkPid =>
    if w.atPrompt then
      let r := evalArgs argv bg "" forkPid "" false w.store
      match r.ret with
      | none => none
      | some _ =>
        if hasFork r.effects then
          if forkPid > 0 ∧ forkPid ∉ w.live then
            some ⟨r.store, forkPid :: w.live, w.reaped.erase forkPid, lastWaitfg r.effects⟩
          else none
        else some ⟨r.store, w.live, w.reaped, lastWaitfg r.effects⟩
    else none
  | Event.reap pid status =>
    if pid ∈ w.live then
      let st := (sigchld_handler [(pid, status)] w.store).1
      match status with
      | WaitStatus.exited _ => some ⟨st, w.live.erase pid, pid :: w.reaped, w.waiting⟩
      | WaitStatus.signaled _ => some ⟨st, w.live.erase pid, pid :: w.reaped, w.waiting⟩
      | _ => some ⟨st, w.live, w.reaped, w.waiting⟩
    else none

/-- A sequence of events from a given world. -/
def World.run (w : World) : List Event → Option World
  | [] => some w
  | e :: rest =>
    match w.step e with
    | none => none
    | some w1 => w1.run rest

/-! ## Interleaving of the main thread with SIGCHLD delivery -/

/-- Program points of the main thread: the non-builtin foreground path of
`eval` in the shell process, the `fg` branch of `builtin_command`, and
`waitfg`.  The numbers are the statements' lines in `tsh.c`. -/
inductive Pc where
  /-- Line 302, `sigprocmask (SIG_BLOCK, &mask_one, &prev_one)`; `pid` is what
  `Fork` is going to return. -/
  | evalBlock (pid : Int)
  /-- Line 303, `pid = Fork ()`. -/
  | evalFork (pid : Int)
  /-- Line 315, `g_runningPid = pid`. -/
  | evalPlace (pid : Int)
  /-- Line 316, `sigprocmask (SIG_SETMASK, &prev_one, NULL)`. -/
  | evalRestore (pid : Int)
  /-- Line 317, `setpgid (pid, pid)`. -/
  | evalSetpgid (pid : Int)
  /-- Line 318, `waitfg (g_runningPid)`: the argument is read here. -/
  | evalWait
  /-- Line 356, `if (g_suspendedPid != 0)`. -/
  | fgTest
  /-- Line 358, `kill (-g_suspendedPid, SIGCONT)`. -/
  | fgKill
  /-- Line 359, `g_runningPid = g_suspendedPid`. -/
  | fgRunning
  /-- Line 360, `g_suspendedPid = 0`. -/
  | fgSuspended
  /-- Line 361, `waitfg (g_runningPid)`: the argument is read here. -/
  | fgWait
  /-- Line 393, the loop test `pid == g_runningPid`. -/
  | waitTest (pid : Int)
  /-- Line 396, about to call `sigsuspend (&mask)`. -/
  | waitSuspend (pid : Int)
  /-- Suspended inside `sigsuspend`, with the empty mask installed. -/
  | inSigsuspend (pid : Int)
  /-- Returned to the caller of `eval`. -/
  | ret
deriving DecidableEq, Repr

/-- What the machine records of a run. -/
inductive Obs where
  /-- The main thread wrote the store at `line`; `blocked` tells whether
  SIGCHLD was in the signal mask at that moment. -/
  | write (line : Nat) (blocked : Bool)
  /-- The main thread called `sigsuspend` from `waitfg (pid)` when the store
  was `st`. -/
  | suspend (pid : Int) (st : Store)
  /-- The main thread called `kill`. -/
  | kill (target : Int) (sig : Sig)
  /-- The Reaper ran and printed `out`. -/
  | reaper (out : List String)
deriving DecidableEq, Repr

/-- The shell process at statement granularity.  `blocked` is whether SIGCHLD
is in the thread's signal mask, `prev_one` the mask saved by line 302,
`live` the children that exist and have not terminated, `reapable` the
children with a state change `waitpid` has not reported yet (SIGCHLD is
pending while there is one), `log` the observations, oldest first. -/
structure Machine where
  pc : Pc
  store : Store
  blocked : Bool
  prev_one : Bool
  live : List Int
  reapable : List (Int × WaitStatus)
  log : List Obs
deriving DecidableEq, Repr

/-- One statement of the main thread; `none` when the thread is suspended in
`sigsuspend` or has returned. -/
def Machine.stepMain (m : Machine) : Option Machine :=
  match m.pc with
  | Pc.evalBlock pid =>
    some { m with pc := Pc.evalFork pid, prev_one := m.blocked, blocked := true }
  | Pc.evalFork pid =>
    if pid > 0 ∧ pid ∉ m.live then
      some { m with pc := Pc.evalPlace pid, live := pid :: m.live }
    else none
  | Pc.evalPlace pid =>
    some { m with pc := Pc.evalRestore pid, store := { m.store with g_runningPid := pid },
                  log := m.log ++ [Obs.write 315 m.blocked] }
  | Pc.evalRestore pid => some { m with pc := Pc.evalSetpgid pid, blocked := m.prev_one }
  | Pc.evalSetpgid _ => some { m with pc := Pc.evalWait }
  | Pc.evalWait => some { m with pc := Pc.waitTest m.store.g_runningPid }
  | Pc.fgTest =>
    if m.store.g_suspendedPid ≠ 0 then some { m with pc := Pc.fgKill }
    else some { m with pc := Pc.ret }
  | Pc.fgKill =>
    some { m with pc := Pc.fgRunning,
                  log := m.log ++ [Obs.kill (-m.store.g_suspendedPid) Sig.SIGCONT] }
  | Pc.fgRunning =>
    some { m with pc := Pc.fgSuspended,
                  store := { m.store with g_runningPid := m.store.g_suspendedPid },
                  log := m.log ++ [Obs.write 359 m.blocked] }
  | Pc.fgSuspended =>
    some { m with pc := Pc.fgWait, store := { m.store with g_suspendedPid := 0 },
                  log := m.log ++ [Obs.write 360 m.blocked] }
  | Pc.fgWait => some { m with pc := Pc.waitTest m.store.g_runningPid }
  | Pc.waitTest pid =>
    if pid = m.store.g_runningPid then some { m with pc := Pc.waitSuspend pid }
    else some { m with pc := Pc.ret }
  | Pc.waitSuspend pid =>
    some { m with pc := Pc.inSigsuspend pid, log := m.log ++ [Obs.suspend pid m.store] }
  | Pc.inSigsuspend _ => none
  | Pc.ret => none

/-- Whether the thread is inside `sigsuspend`. -/
def Pc.suspended : Pc → Bool
  | Pc.inSigsuspend _ => true
  | _ => false

/-- Delivery of a pending SIGCHLD: possible when a child is reapable and the
signal is not blocked, or the thread is in `sigsuspend` (whose mask is empty).
The Reaper collects every reapable child; a thread suspended in `sigsuspend`
returns from it to the loop test. -/
def Machine.deliver (m : Machine) : Option Machine :=
  if m.reapable ≠ [] ∧ (m.blocked = false ∨ m.pc.suspended = true) then
    let r := sigchld_handler m.reapable m.store
    let pc1 := match m.pc with
      | Pc.inSigsuspend pid => Pc.waitTest pid
      | pc0 => pc0
    some { m with pc := pc1, store := r.1, reapable := [], log := m.log ++ [Obs.reaper r.2] }
  else none

/-- A child changes state: it must exist; one that exits or is killed exists
no more afterwards. -/
def Machine.childChange (m : Machine) (pid : Int) (status : WaitStatus) : Option Machine :=
  if pid > 0 ∧ pid ∈ m.live then
    match status with
    | WaitStatus.exited _ =>
      some { m with live := m.live.erase pid, reapable := m.reapable ++ [(pid, status)] }
    | WaitStatus.signaled _ =>
      some { m with live := m.live.erase pid, reapable := m.reapable ++ [(pid, status)] }
    | WaitStatus.stopped _ => some { m with reapable := m.reapable ++ [(pid, status)] }
    | WaitStatus.other => none
  else none

/-- The moves of the machine. -/
inductive Move where
  | main
  | deliver
  | child (pid : Int) (status : WaitStatus)
deriving DecidableEq, Repr

/-- One move. -/
def Machine.step (m : Machine) : Move → Option Machine
  | Move.main => m.stepMain
  | Move.deliver => m.deliver
  | Move.child pid status => m.childChange pid status

/-- A schedule of moves. -/
def Machine.run (m : Machine) : List Move → Option Machine
  | [] => some m
  | mv :: rest =>
    match m.step mv with
    | none => none
    | some m1 => m1.run rest

/-- The shell about to run line 302 for a foreground command, called from the
read loop of `main` (which never blocks SIGCHLD), when `Fork` will return
`pid`. -/
def Machine.evalStart (st : Store) (live : List Int) (pid : Int) : Machine :=
  ⟨Pc.evalBlock pid, st, false, false, live, [], []⟩

/-- The shell about to run line 356 of the `fg` builtin, called from `eval`
line 300 in the read loop of `main` (SIGCHLD not blocked). -/
def Machine.fgStart (st : Store) (live : List Int) : Machine :=
  ⟨Pc.fgTest, st, false, false, live, [], []⟩

/-- The schedule of the lost wakeup: lines 302, 303, 315, 316, 317, 318 and the
loop test of `waitfg (5)` run; then child 5 exits and the Reaper runs; then
the main thread calls `sigsuspend`. -/
def lostWakeupSchedule : List Move :=
  [Move.main, Move.main, Move.main, Move.main, Move.main, Move.main, Move.main,
   Move.child 5 (WaitStatus.exited 0), Move.deliver, Move.main]

/-- The machine reached by `lostWakeupSchedule`. -/
def lostWakeupState : Machine :=
  ⟨Pc.inSigsuspend 5, ⟨0, 0⟩, false, false, [], [],
   [Obs.write 315 true, Obs.reaper [], Obs.suspend 5 ⟨0, 0⟩]⟩

/-! ## Command-line parser -/

/-- The constant `MAXLINE`: max line size. -/
def MAXLINE : Nat := 1024

/-- The constant `MAXARGS`: max args on a command line, and the number of
elements of the array `argv` that `eval` passes to `parseline`. -/
def MAXARGS : Nat := 128

/-- The newline character that ends a command line. -/
def newline : Char := Char.ofNat 10

/-- The single-quote character. -/
def quote : Char := Char.ofNat 39

/-- The library call `strchr (s, c)` on the characters of `s` before its
terminator: the offset of the first `c`, `none` for a NULL result. -/
def strchr : List Char → Char → Option Nat
  | [], _ => none
  | x :: xs, c => if x = c then some 0 else (strchr xs c).map (· + 1)

/-- The loop `while (*buf && (*buf == ' ')) buf++`. -/
def skipSpaces : List Char → List Char
  | [] => []
  | x :: xs => if x = ' ' then skipSpaces xs else x :: xs

/-- Lines 220-228 and 239-247 of `parseline`: on a quote `buf` is advanced and
the next quote is looked for, otherwise the next space.  Gives the new `buf`,
`delim` as an offset from it, and whether the search was for a quote. -/
def findDelim (buf : List Char) : List Char × Option Nat × Bool :=
  match buf with
  | [] => ([], strchr [] ' ', false)
  | c :: rest =>
    if c = quote then (rest, strchr rest quote, true)
    else (c :: rest, strchr (c :: rest) ' ', false)

/-- The scan of `parseline` from a position of the local copy: skip spaces,
find `delim`, and while `delim` is not NULL store the argument that ends at
`delim` and go on behind it.  The result is the arguments stored and whether
the scan ended on a quote that has no closing quote; `none` when `fuel` does
not suffice. -/
def scanFrom : Nat → List Char → Option (List (List Char) × Bool)
  | 0, _ => none
  | fuel + 1, s =>
    let r := findDelim (skipSpaces s)
    match r.2.1 with
    | none => some ([], r.2.2)
    | some d =>
      match scanFrom fuel (r.1.drop (d + 1)) with
      | none => none
      | some t => some (r.1.take d :: t.1, t.2)

/-- The local copy `array` of `parseline` after line 214: the command line
with its last character replaced by a space. -/
def lineCopy (cmdline : List Char) : List Char := cmdline.dropLast ++ [' ']

/-- The arguments `parseline` has stored when it reaches line 250, and whether
its scan ended on an unclosed quote. -/
def parselineScan (cmdline : List Char) : Option (List (List Char) × Bool) :=
  scanFrom ((lineCopy cmdline).length + 1) (lineCopy cmdline)

/-- The test `*argv[argc - 1] == '&'` on the last argument. -/
def startsWithAmp (tok : List Char) : Bool :=
  match tok with
  | [] => false
  | c :: _ => decide (c = '&')

/-- The function `parseline`, called with the array `char *argv[MAXARGS]` of
`eval`: the argument vector (without the terminating NULL) and the value
returned.  `cmdline` is the characters of the C string.  The result is `none`
where the behaviour is undefined: on the empty string line 214 writes before
the local copy, and once `MAXARGS` or more arguments are stored the loop or
line 250 writes `argv` at index `MAXARGS` or beyond, past the end of the
array. -/
def parseline (cmdline : List Char) : Option (List (List Char) × Bool) :=
  if cmdline = [] then none
  else
    match parselineScan cmdline with
    | none => none
    | some r =>
      let argv := r.1
      if MAXARGS ≤ argv.length then none
      else
        match argv.getLast? with
        | none => some (argv, true)
        | some last =>
          if startsWithAmp last then some (argv.dropLast, true)
          else some (argv, false)

/-- The function `eval` on a command line: `parseline` into the array `argv`
of `MAXARGS` elements, then `evalArgs`; `none` where `parseline` is
undefined. -/
def eval (cmdline : String) (forkResult : Int) (errText : String) (execFails : Bool)
    (st : Store) : Option Run :=
  match parseline cmdline.toList with
  | none => none
  | some r => some (evalArgs (r.1.map String.mk) r.2 cmdline forkResult errText execFails st)

/-- The signal mask while a sequence of calls runs: `mask` tells whether
SIGCHLD is blocked, `prev` is what line 302 saved in `prev_one`. -/
def maskAfter (mask prev : Bool) : List Effect → Bool × Bool
  | [] => (mask, prev)
  | Effect.blockSigchld :: rest => maskAfter true mask rest
  | Effect.restoreMask :: rest => maskAfter prev prev rest
  | _ :: rest => maskAfter mask prev rest

/-- Whether the calls contain a `waitfg`. -/
def hasWaitfg : List Effect → Bool
  | [] => false
  | Effect.waitfg _ :: _ => true
  | _ :: rest => hasWaitfg rest

/-- The indices of `argv` that `parseline` writes, in program order: one per
argument stored by the loop (`argv[argc++] = buf`), then the terminating NULL
of line 250 (`argv[argc] = NULL`), then the index of the removed `&` argument
when line 258 runs (`argv[--argc] = NULL`). -/
def argvWrites (cmdline : List Char) : Option (List Nat) :=
  if cmdline = [] then none
  else
    match parselineScan cmdline with
    | none => none
    | some r =>
      let argc := r.1.length
      let stores := List.range argc ++ [argc]
      match r.1.getLast? with
      | none => some stores
      | some last =>
        if startsWithAmp last then some (stores ++ [argc - 1]) else some stores

/-- A command line of 128 arguments `a` separated by single spaces: 256
characters with its newline. -/
def manyArgsLine : List Char :=
  (List.replicate 127 ['a', ' ']).flatten ++ ['a', newline]

end Tsh

/-!
The queue of queue.c, on a singly-linked list.

A shallow embedding of `src/queue.c`: list elements live in a heap indexed by
address, `queue_t` holds the `head` and `tail` pointers and `size`.  A NULL
pointer is `none`; dereferencing NULL or a freed element is undefined and
makes an operation return `none`.  The `int` fields are taken as integers.
-/

namespace CQueue

/-- The element type `list_ele_t` (declared in `queue.h`): a value and the
`next` pointer. -/
structure list_ele_t where
  value : Int
  next : Option Nat
deriving DecidableEq, Repr

/-- The type `queue_t` (declared in `queue.h`), with the fields `queue.c`
uses. -/
structure queue_t where
  head : Option Nat
  tail : Option Nat
  size : Int
deriving DecidableEq, Repr

/-- The allocated list elements, by address. -/
def Heap := List (Nat × list_ele_t)

instance : DecidableEq Heap := inferInstanceAs (DecidableEq (List (Nat × list_ele_t)))

instance : Repr Heap := inferInstanceAs (Repr (List (Nat × list_ele_t)))

/-- The element at address `a`, `none` if nothing is allocated there. -/
def Heap.read : Heap → Nat → Option list_ele_t
  | [], _ => none
  | (b, n) :: rest, a => if b = a then some n else Heap.read rest a

/-- Removes address `a` from the heap (`free`). -/
def Heap.release : Heap → Nat → Heap
  | [], _ => []
  | (b, n) :: rest, a => if b = a then Heap.release rest a else (b, n) :: Heap.release rest a

/-- Stores element `n` at address `a`. -/
def Heap.write (h : Heap) (a : Nat) (n : list_ele_t) : Heap := (a, n) :: h.release a

/-- What an operation returns: its return value, the heap, and the structure
`q` points to (`none` when `q` is NULL). -/
structure Ret (α : Type) where
  ret : α
  heap : Heap
  q : Option queue_t
deriving DecidableEq, Repr

/-- The function `q_new`; `mallocOk` tells whether `malloc` succeeds. -/
def q_new (mallocOk : Bool) : Option queue_t :=
  if mallocOk then some ⟨none, none, 0⟩ else none

/-- The function `q_insert_head`; `malloc` is what `malloc` returns for the
new element (`none` for NULL). -/
def q_insert_head (h : Heap) (q : Option queue_t) (v : Int) (malloc : Option Nat) :
    Option (Ret Bool) :=
  match q with
  | none => some ⟨false, h, none⟩
  | some qs =>
    match malloc with
    | some newh =>
      let h1 := h.write newh ⟨v, qs.head⟩
      let q1 : queue_t := { qs with head := some newh }
      let q2 : queue_t := if q1.size = 0 then { q1 with tail := some newh } else q1
      some ⟨true, h1, some { q2 with size := q2.size + 1 }⟩
    | none => some ⟨false, h, some qs⟩

/-- The function `q_insert_tail`. -/
def q_insert_tail (h : Heap) (q : Option queue_t) (v : Int) (malloc : Option Nat) :
    Option (Ret Bool) :=
  match q with
  | some qs =>
    match malloc with
    | some newh =>
      let h1 := h.write newh ⟨v, none⟩
      if qs.size ≠ 0 then
        match qs.tail with
        | none => none
        | some t =>
          match h1.read t with
          | none => none
          | some tn =>
            let h2 := h1.write t { tn with next := some newh }
            some ⟨true, h2, some { qs with tail := some newh, size := qs.size + 1 }⟩
      else
        some ⟨true, h1, some { head := some newh, tail := some newh, size := qs.size + 1 }⟩
    | none => some ⟨false, h, some qs⟩
  | none => some ⟨false, h, none⟩

/-- What `q_remove_head` returns: the return value, what `*vp` holds
afterwards (`none` when `vp` is NULL), the heap and the queue structure. -/
structure RemoveRet where
  ret : Bool
  vp : Option Int
  heap : Heap
  q : Option queue_t
deriving DecidableEq, Repr

/-- The function `q_remove_head`; `vp` is `none` for a NULL pointer and
otherwise holds the current value of `*vp`. -/
def q_remove_head (h : Heap) (q : Option queue_t) (vp : Option Int) : Option RemoveRet :=
  match q with
  | none => some ⟨false, vp, h, none⟩
  | some qs =>
    if qs.size = 0 then some ⟨false, vp, h, some qs⟩
    else
      match qs.head with
      | none => none
      | some currentNode =>
        match h.read currentNode with
        | none => none
        | some n =>
          let vp1 := match vp with
            | some _ => some n.value
            | none => none
          some ⟨true, vp1, h.release currentNode,
            some { qs with head := n.next, size := qs.size - 1 }⟩

/-- The function `q_size`. -/
def q_size (q : Option queue_t) : Int :=
  match q with
  | some qs => qs.size
  | none => 0

/-- The `while` loop of `q_reverse`, from `currentNode` and `prevNode`: the
heap and `prevNode` when the loop ends, `none` when an element is missing or
`fuel` iterations do not reach NULL. -/
def reverseLoop : Nat → Heap → Option Nat → Option Nat → Option (Heap × Option Nat)
  | _, h, none, prevNode => some (h, prevNode)
  | 0, _, some _, _ => none
  | fuel + 1, h, some currentNode, prevNode =>
    match h.read currentNode with
    | none => none
    | some n =>
      let tempNode := n.next
      reverseLoop fuel (h.write currentNode { n with next := prevNode }) tempNode
        (some currentNode)

/-- The function `q_reverse`.  The loop gets as many iterations as there are
allocated elements. -/
def q_reverse (h : Heap) (q : Option queue_t) : Option (Ret Unit) :=
  match q with
  | none => some ⟨(), h, none⟩
  | some qs =>
    let q1 : queue_t := { qs with tail := qs.head }
    match reverseLoop h.length h qs.head none with
    | none => none
    | some r => some ⟨(), r.1, some { q1 with head := r.2 }⟩

/-! ## Queues built by the operations -/

/-- A non-NULL queue and the heap its elements live in. -/
structure QState where
  heap : Heap
  q : queue_t
deriving DecidableEq, Repr

/-- The queue right after a successful `q_new`. -/
def QState.init : QState := ⟨[], ⟨none, none, 0⟩⟩

/-- A call on the queue.  For the insertions `malloc` is the result of the
call of `malloc`. -/
inductive Op where
  | insert_head (v : Int) (malloc : Option Nat)
  | insert_tail (v : Int) (malloc : Option Nat)
  | remove_head (vp : Option Int)
  | reverse
deriving DecidableEq, Repr

/-- Whether `malloc` may return this: NULL, or an address at which nothing
is allocated. -/
def Heap.mayAlloc (h : Heap) : Option Nat → Bool
  | none => true
  | some a => (h.read a).isNone

/-- The state after a `Ret`. -/
def Ret.state {α : Type} (r : Ret α) : Option QState :=
  match r.q with
  | none => none
  | some q => some ⟨r.heap, q⟩

/-- One call on the queue; `none` when `malloc` cannot return the given
address or the call is undefined. -/
def QState.step (s : QState) : Op → Option QState
  | Op.insert_head v m =>
    if s.heap.mayAlloc m then
      match q_insert_head s.heap (some s.q) v m with
      | none => none
      | some r => r.state
    else none
  | Op.insert_tail v m =>
    if s.heap.mayAlloc m then
      match q_insert_tail s.heap (some s.q) v m with
      | none => none
      | some r => r.state
    else none
  | Op.remove_head vp =>
    match q_remove_head s.heap (some s.q) vp with
    | none => none
    | some r =>
      match r.q with
      | none => none
      | some q => some ⟨r.heap, q⟩
  | Op.reverse =>
    match q_reverse s.heap (some s.q) with
    | none => none
    | some r => r.state

/-- A sequence of calls. -/
def QState.run (s : QState) : List Op → Option QState
  | [] => some s
  | op :: rest =>
    match s.step op with
    | none => none
    | some s1 => s1.run rest

/-- Follows `next` pointers from `p` to NULL and collects the values; `none`
when an element is missing or `fuel` steps do not reach NULL. -/
def walk : Nat → Heap → Option Nat → Option (List Int)
  | _, _, none => some []
  | 0, _, some _ => none
  | fuel + 1, h, some a =>
    match h.read a with
    | none => none
    | some n =>
      match walk fuel h n.next with
      | none => none
      | some vs => some (n.value :: vs)

/-- The sequence of values the queue holds, read off the heap from `head`. -/
def QState.toList (s : QState) : Option (List Int) := walk s.heap.length s.heap s.q.head

/-- The addresses of the elements of the queue, from `head`. -/
def walkAddrs : Nat → Heap → Option Nat → Option (List Nat)
  | _, _, none => some []
  | 0, _, some _ => none
  | fuel + 1, h, some a =>
    match h.read a with
    | none => none
    | some n =>
      match walkAddrs fuel h n.next with
      | none => none
      | some as => some (a :: as)

/-- The addresses of the elements of the queue, from `head`. -/
def QState.addrs (s : QState) : Option (List Nat) := walkAddrs s.heap.length s.heap s.q.head

/-! ## Representation invariant -/

/-- The pointer to the first of `cells` (pairs of address and value), or `e`
when there is none. -/
def firstPtr (cells : List (Nat × Int)) (e : Option Nat) : Option Nat :=
  match cells with
  | [] => e
  | c :: _ => some c.1

/-- The heap holds `cells` as a chain: each element has its value and points
to the next one, the last one to `e`. -/
def Seg (h : Heap) : List (Nat × Int) → Option Nat → Prop
  | [], _ => True
  | c :: rest, e => h.read c.1 = some ⟨c.2, firstPtr rest e⟩ ∧ Seg h rest e

/-- The queue is the NULL-terminated chain `cells` from `head`, on distinct
addresses, `size` is their number, and `tail` points to the last of them if
there is one. -/
structure WF (s : QState) (cells : List (Nat × Int)) : Prop where
  head : s.q.head = firstPtr cells none
  seg : Seg s.heap cells none
  nodup : (cells.map Prod.fst).Nodup
  size : s.q.size = cells.length
  tail : ∀ c, cells.getLast? = some c → s.q.tail = some c.1

/-! ## Sample queues -/

/-- Calls that build the queue 1, 2, 3. -/
def builtOps : List Op :=
  [Op.insert_head 1 (some 10), Op.insert_tail 2 (some 11), Op.insert_tail 3 (some 12)]

/-- The queue 1, 2, 3 built by `builtOps`. -/
def builtState : QState :=
  ⟨[(11, ⟨2, some 12⟩), (12, ⟨3, none⟩), (10, ⟨1, some 11⟩)], ⟨some 10, some 12, 3⟩⟩

/-- Calls that build a queue and empty it again. -/
def emptiedOps : List Op := [Op.insert_tail 1 (some 10), Op.remove_head none]

/-- The queue emptied by `emptiedOps`: `tail` still holds the address of the
freed element. -/
def emptiedState : QState := ⟨[], ⟨none, some 10, 0⟩⟩

end CQueue

namespace Tsh

/-! ## Supporting lemmas -/

/-- The three ways `eval` can leave the store: unchanged; the stopped job
promoted by `fg`, without any `fork`; or the pid returned by `fork` placed in
the foreground. -/
theorem evalArgs_store_cases (argv : List String) (bg : Bool) (cmdline : String)
    (forkResult : Int) (errText : String) (execFails : Bool) (st : Store) :
    (evalArgs argv bg cmdline forkResult errText execFails st).store = st ∨
    ((evalArgs argv bg cmdline forkResult errText execFails st).store
        = ⟨st.g_suspendedPid, 0⟩ ∧ st.g_suspendedPid ≠ 0) ∨
    ((evalArgs argv bg cmdline forkResult errText execFails st).store
        = ⟨forkResult, st.g_suspendedPid⟩ ∧
      hasFork (evalArgs argv bg cmdline forkResult errText execFails st).effects = true) := by
  cases argv with
  | nil => left; rfl
  | cons argv0 rest =>
    by_cases hq : argv0 = "quit"
    · left; simp [evalArgs, builtin_command, hq]
    · by_cases hf : argv0 = "fg"
      · by_cases hs : st.g_suspendedPid = 0
        · left; simp [evalArgs, builtin_command, hf, hs]
        · right; left
          simp [evalArgs, builtin_command, FgReaps.quiet, sigchld_handler, hf, hs]
      · by_cases hneg : forkResult < 0
        · left; simp [evalArgs, builtin_command, hq, hf, Fork, hneg]
        · by_cases hz : forkResult = 0
          · left
            cases execFails <;> simp [evalArgs, builtin_command, hq, hf, Fork, hz]
          · cases bg
            · right; right
              simp [evalArgs, builtin_command, hq, hf, Fork, hneg, hz, hasFork]
            · left
              simp [evalArgs, builtin_command, hq, hf, Fork, hneg, hz]

/-- Roles stay distinct across one event as long as the stopped pid names a
child that still exists: `fork` cannot hand out the pid of such a child. -/
theorem World.step_keeps_roles_distinct (w w1 : World) (e : Event)
    (hstep : w.step e = some w1)
    (hinv : w.store.g_runningPid = 0 ∨ w.store.g_runningPid ≠ w.store.g_suspendedPid)
    (hlive : w.store.g_suspendedPid = 0 ∨ w.store.g_suspendedPid ∈ w.live) :
    w1.store.g_runningPid = 0 ∨ w1.store.g_runningPid ≠ w1.store.g_suspendedPid := by
  cases e with
  | command argv bg forkPid =>
    simp only [World.step] at hstep
    split at hstep
    · rcases evalArgs_store_cases argv bg "" forkPid "" false w.store with h | h | h
      · split at hstep
        · cases hstep
        · split at hstep
          · split at hstep
            · cases hstep; simpa [h] using hinv
            · cases hstep
          · cases hstep; simpa [h] using hinv
      · split at hstep
        · cases hstep
        · have hz : w.store.g_suspendedPid ≠ 0 := h.2
          split at hstep
          · split at hstep
            · cases hstep; right; simp [h.1, hz]
            · cases hstep
          · cases hstep; right; simp [h.1, hz]
      · split at hstep
        · cases hstep
        · simp only [h.2, if_true] at hstep
          split at hstep
          · rename_i hfresh
            cases hstep
            right
            simp only [h.1]
            intro heq
            rcases hlive with h0 | hmem
            · omega
            · exact hfresh.2 (heq ▸ hmem)
          · cases hstep
    · cases hstep
  | reap pid status =>
    simp only [World.step] at hstep
    split at hstep
    · rename_i hmem
      by_cases hpos : pid > 0
      · by_cases heq : pid = w.store.g_runningPid
        · have hr : (0 : Int) < w.store.g_runningPid := heq ▸ hpos
          cases status <;> simp only at hstep <;> cases hstep <;>
            first
            | (simp [sigchld_handler, reapOne, hpos, heq, hr]; done)
            | (simp [sigchld_handler, reapOne, hpos, heq, hr]; exact hinv)
        · cases status <;> simp only at hstep <;> cases hstep <;>
            simp [sigchld_handler, reapOne, hpos, heq] <;> exact hinv
      · cases status <;> simp only at hstep <;> cases hstep <;>
          simp [sigchld_handler, hpos] <;> exact hinv
    · cases hstep

/-- Between lines 359 and 360 of the `fg` builtin both globals hold the stopped
pid, with SIGCHLD unblocked. -/
theorem Machine.fg_transient_state :
    (Machine.fgStart ⟨0, 5⟩ [5]).run [Move.main, Move.main, Move.main]
      = some ⟨Pc.fgSuspended, ⟨5, 5⟩, false, false, [5], [],
          [Obs.kill (-5) Sig.SIGCONT, Obs.write 359 false]⟩ := by
  decide

/-- When the child has exited before line 316 restores the mask and the Reaper
runs right after it, line 318 reads `g_runningPid = 0` and the shell ends up
suspended in `waitfg (0)` with `g_runningPid = 0`. -/
theorem Machine.eval_waits_for_pid_zero :
    (Machine.evalStart Store.init [] 5).run
      [Move.main, Move.main, Move.child 5 (WaitStatus.exited 0), Move.main, Move.main,
       Move.deliver, Move.main, Move.main, Move.main, Move.main]
      = some ⟨Pc.inSigsuspend 0, ⟨0, 0⟩, false, false, [], [],
          [Obs.write 315 true, Obs.reaper [], Obs.suspend 0 ⟨0, 0⟩]⟩ := by
  decide

/-- The placement write of `eval` (line 315) happens with SIGCHLD blocked,
whatever the mask was when `eval` was entered. -/
theorem Machine.eval_places_with_sigchld_blocked (m m1 : Machine) (pid : Int)
    (hpc : m.pc = Pc.evalBlock pid)
    (hrun : m.run [Move.main, Move.main, Move.main] = some m1) :
    m1.log = m.log ++ [Obs.write 315 true] ∧ m1.store.g_runningPid = pid := by
  simp only [Machine.run, Machine.step, Machine.stepMain, hpc] at hrun
  by_cases hf : pid > 0 ∧ pid ∉ m.live
  · simp only [hf, and_self, if_true] at hrun
    cases hrun
    exact ⟨rfl, rfl⟩
  · simp [hf] at hrun

/-- On entry to `waitfg (pid)` with `g_runningPid` different from `pid`, the
loop test fails and `waitfg` returns without any call of `sigsuspend`. -/
theorem Machine.waitfg_returns_at_once (m : Machine) (pid : Int)
    (hpc : m.pc = Pc.waitTest pid) (hne : pid ≠ m.store.g_runningPid) :
    m.stepMain = some { m with pc := Pc.ret } := by
  simp [Machine.stepMain, hpc, hne]

/-- The statements of `waitfg` do not write the store. -/
theorem Machine.waitfg_keeps_store (m m1 : Machine) (pid : Int)
    (hpc : m.pc = Pc.waitTest pid ∨ m.pc = Pc.waitSuspend pid)
    (hstep : m.stepMain = some m1) : m1.store = m.store := by
  rcases hpc with hpc | hpc
  · simp only [Machine.stepMain, hpc] at hstep
    split at hstep <;> cases hstep <;> rfl
  · simp only [Machine.stepMain, hpc] at hstep
    cases hstep
    rfl

/-- When the loop test of `waitfg (pid)` lets it return, `g_runningPid` differs
from `pid` at that test. -/
theorem Machine.waitfg_return_means_vacated (m m1 : Machine) (pid : Int)
    (hpc : m.pc = Pc.waitTest pid) (hstep : m.stepMain = some m1)
    (hret : m1.pc = Pc.ret) : m1.store.g_runningPid ≠ pid := by
  simp only [Machine.stepMain, hpc] at hstep
  split at hstep
  · cases hstep
    cases hret
  · rename_i hne
    cases hstep
    exact fun h => hne h.symm

/-- In a run of the `fg` branch during which no SIGCHLD is delivered, with a
stopped job `s`, the calls are `kill (-s, SIGCONT)` and `waitfg (s)`, the store
becomes `(s, 0)` and 1 is returned; `eval` makes exactly these calls, none of
them a `fork`. -/
theorem builtin_command_fg_quiet (st : Store) (s : Int)
    (hs : st.g_suspendedPid = s) (hne : s ≠ 0)
    (args : List String) (bg : Bool) (cmdline : String) (forkResult : Int)
    (errText : String) (execFails : Bool) :
    builtin_command "fg" st FgReaps.quiet =
      ⟨⟨s, 0⟩, [Effect.kill (-s) Sig.SIGCONT, Effect.waitfg s], some 1⟩ ∧
    evalArgs ("fg" :: args) bg cmdline forkResult errText execFails st =
      ⟨⟨s, 0⟩, [Effect.kill (-s) Sig.SIGCONT, Effect.waitfg s], some 0⟩ ∧
    hasFork (evalArgs ("fg" :: args) bg cmdline forkResult errText execFails st).effects
      = false := by
  subst hs
  have hb : builtin_command "fg" st FgReaps.quiet =
      ⟨⟨st.g_suspendedPid, 0⟩,
        [Effect.kill (-st.g_suspendedPid) Sig.SIGCONT, Effect.waitfg st.g_suspendedPid],
        some 1⟩ := by
    simp [builtin_command, FgReaps.quiet, sigchld_handler, hne]
  refine ⟨hb, ?_, ?_⟩ <;> simp [evalArgs, hb, hasFork]

/-- When no SIGCHLD is delivered between its two reads, a relay leaves the
store as it was, makes no call when `g_runningPid` is absent and otherwise the
one call `kill (-g_runningPid, sig)`, whose target is not 0. -/
theorem relays_quiet (st : Store) (sig : Sig) :
    sigint_handler st [] =
      (st, if st.g_runningPid = 0 then []
           else [Effect.kill (-st.g_runningPid) Sig.SIGINT]) ∧
    sigtstp_handler st [] =
      (st, if st.g_runningPid = 0 then []
           else [Effect.kill (-st.g_runningPid) Sig.SIGTSTP]) ∧
    Effect.kill 0 sig ∉ (sigint_handler st []).2 ∧
    Effect.kill 0 sig ∉ (sigtstp_handler st []).2 := by
  by_cases h : st.g_runningPid = 0
  · simp [sigint_handler, sigtstp_handler, h]
  · have h2 : ¬ (0 : Int) = -st.g_runningPid := by omega
    simp [sigint_handler, sigtstp_handler, sigchld_handler, h, h2]

/-! ### The parser -/

theorem strchr_lt (s : List Char) (c : Char) (d : Nat) (h : strchr s c = some d) :
    d < s.length := by
  induction s generalizing d with
  | nil => simp [strchr] at h
  | cons x xs ih =>
    simp only [strchr] at h
    split at h
    · cases h; simp
    · cases hx : strchr xs c with
      | none => simp [hx] at h
      | some e =>
        simp [hx] at h
        subst h
        have := ih e hx
        simp; omega

theorem skipSpaces_length_le (s : List Char) : (skipSpaces s).length ≤ s.length := by
  induction s with
  | nil => simp [skipSpaces]
  | cons x xs ih =>
    simp only [skipSpaces]
    split
    · simp; omega
    · simp

theorem skipSpaces_eq_dropWhile (s : List Char) :
    skipSpaces s = s.dropWhile (· = ' ') := by
  induction s with
  | nil => rfl
  | cons x xs ih =>
    by_cases hx : x = ' '
    · simp [skipSpaces, hx, ih, List.dropWhile]
    · simp [skipSpaces, hx, List.dropWhile]

theorem dropWhile_head_ne (s : List Char) (c : Char) (rest : List Char)
    (h : s.dropWhile (· = ' ') = c :: rest) : c ≠ ' ' := by
  induction s with
  | nil => simp at h
  | cons x xs ih =>
    by_cases hx : x = ' '
    · simp [List.dropWhile, hx] at h; exact ih h
    · simp [List.dropWhile, hx] at h
      rw [← h.1]; exact hx

theorem skipSpaces_replicate (n : Nat) : skipSpaces (List.replicate n ' ') = [] := by
  induction n with
  | zero => rfl
  | succ k ih => simp [List.replicate, skipSpaces, ih]

theorem skipSpaces_head_ne (s : List Char) (c : Char) (rest : List Char)
    (h : skipSpaces s = c :: rest) : c ≠ ' ' := by
  rw [skipSpaces_eq_dropWhile] at h
  exact dropWhile_head_ne s c rest h

/-- Every argument the scan stores uses up at least two characters of the
local copy. -/
theorem scanFrom_length_le (fuel : Nat) : ∀ (s : List Char) (toks : List (List Char)) (q : Bool),
    scanFrom fuel s = some (toks, q) → 2 * toks.length ≤ s.length := by
  induction fuel with
  | zero =>
    intro s toks q h
    simp [scanFrom] at h
  | succ f ih =>
    intro s toks q h
    simp only [scanFrom] at h
    have hlen := skipSpaces_length_le s
    cases hb : skipSpaces s with
    | nil =>
      rw [hb] at h
      simp only [findDelim, strchr] at h
      simp only [Option.some.injEq, Prod.mk.injEq] at h
      rw [← h.1]
      simp
    | cons c rest =>
      have hc : c ≠ ' ' := skipSpaces_head_ne s c rest hb
      rw [hb] at h hlen
      simp only [List.length_cons] at hlen
      by_cases hq : c = quote
      · simp only [findDelim, hq, if_true] at h
        cases hd : strchr rest quote with
        | none =>
          simp only [hd, Option.some.injEq, Prod.mk.injEq] at h
          rw [← h.1]
          simp
        | some d =>
          simp only [hd] at h
          have hdl := strchr_lt _ _ _ hd
          cases hr : scanFrom f (rest.drop (d + 1)) with
          | none => simp [hr] at h
          | some t =>
            simp only [hr, Option.some.injEq, Prod.mk.injEq] at h
            have := ih _ t.1 t.2 hr
            rw [← h.1]
            simp only [List.length_cons, List.length_drop] at this ⊢
            omega
      · simp only [findDelim, hq, if_false] at h
        cases hd : strchr (c :: rest) ' ' with
        | none =>
          simp only [hd, Option.some.injEq, Prod.mk.injEq] at h
          rw [← h.1]
          simp
        | some d =>
          simp only [hd] at h
          have hdl := strchr_lt _ _ _ hd
          have hd1 : 1 ≤ d := by
            simp only [strchr, hc, if_false] at hd
            cases hx : strchr rest ' ' with
            | none => simp [hx] at hd
            | some e =>
              simp [hx] at hd
              omega
          rw [List.drop_succ_cons] at h
          cases hr : scanFrom f (rest.drop d) with
          | none => simp [hr] at h
          | some t =>
            simp only [hr, Option.some.injEq, Prod.mk.injEq] at h
            have := ih _ t.1 t.2 hr
            rw [← h.1]
            simp only [List.length_cons, List.length_drop] at this hdl ⊢
            omega

/-- On a command line of at most 255 characters `parseline` stores at most 127
arguments, so every index of `argv` it writes is below `MAXARGS`. -/
theorem argvWrites_lt_of_short (cmdline : List Char) (w : List Nat)
    (hlen : cmdline.length ≤ 255) (hw : argvWrites cmdline = some w) :
    ∀ i ∈ w, i < MAXARGS := by
  simp only [argvWrites] at hw
  split at hw
  · cases hw
  · rename_i hne
    cases hs : parselineScan cmdline with
    | none => simp [hs] at hw
    | some r =>
      simp only [hs] at hw
      have h2 := scanFrom_length_le _ _ r.1 r.2 hs
      have hcopy : (lineCopy cmdline).length = cmdline.length := by
        cases cmdline with
        | nil => exact absurd rfl hne
        | cons x xs => simp [lineCopy]
      rw [hcopy] at h2
      have hargc : r.1.length ≤ 127 := by omega
      have hstores : ∀ i ∈ List.range r.1.length ++ [r.1.length], i < MAXARGS := by
        intro i hi
        simp only [List.mem_append, List.mem_range, List.mem_singleton] at hi
        simp only [MAXARGS]
        omega
      cases hl : r.1.getLast? with
      | none =>
        simp only [hl, Option.some.injEq] at hw
        rw [← hw]
        exact hstores
      | some last =>
        simp only [hl] at hw
        split at hw
        · simp only [Option.some.injEq] at hw
          rw [← hw]
          intro i hi
          rcases List.mem_append.mp hi with h1 | h1
          · exact hstores i h1
          · simp only [List.mem_singleton] at h1
            simp only [MAXARGS]
            omega
        · simp only [Option.some.injEq] at hw
          rw [← hw]
          exact hstores

/-! ## Theorems -/

/-- C1, evaluated on the code: foreground launch of child 5, child 5 stopped,
child 5 killed while stopped, then a foreground launch for which `fork` hands
out pid 5 again; afterwards `g_runningPid` and `g_suspendedPid` both hold 5. -/
theorem C1_both_roles_hold_same_pid :
    World.init.run
      [Event.command ["/bin/sleep", "100"] false 5,
       Event.reap 5 (WaitStatus.stopped 20),
       Event.reap 5 (WaitStatus.signaled 9),
       Event.command ["/bin/ls"] false 5]
      = some ⟨⟨5, 5⟩, [5], [], some 5⟩ := by
  decide

/-- C2, evaluated on the code: child 5 is launched in the foreground, stopped,
and then killed while it is the stopped job; after the Reaper has collected
it as killed, `g_suspendedPid` still holds 5 although no child 5 exists. -/
theorem C2_stopped_pid_survives_termination :
    World.init.run
      [Event.command ["/bin/sleep", "100"] false 5,
       Event.reap 5 (WaitStatus.stopped 20),
       Event.reap 5 (WaitStatus.signaled 9)]
      = some ⟨⟨0, 5⟩, [], [5], some 5⟩ := by
  decide

/-- C3, evaluated on the code: a foreground launch of child 5 whose SIGCHLD is
delivered between the loop test of `waitfg` and its `sigsuspend` leaves the
shell suspended in `sigsuspend` for pid 5 with `g_runningPid` already vacated
and no reapable child left, and from there no move of the machine is possible
at all. -/
theorem C3_lost_wakeup :
    (Machine.evalStart Store.init [] 5).run lostWakeupSchedule = some lostWakeupState ∧
    lostWakeupState.pc = Pc.inSigsuspend 5 ∧
    lostWakeupState.store.g_runningPid ≠ 5 ∧
    lostWakeupState.reapable = [] ∧
    ∀ mv : Move, lostWakeupState.step mv = none := by
  refine ⟨by decide, rfl, by decide, rfl, ?_⟩
  intro mv
  cases mv with
  | main => rfl
  | deliver => rfl
  | child pid status =>
    simp [Machine.step, Machine.childChange, lostWakeupState]

/-- C4, evaluated on the code: the `fg` builtin, entered from the read loop with
child 5 as the stopped job, performs both of its writes to the store (lines
359 and 360) while SIGCHLD is not blocked. -/
theorem C4_fg_writes_with_sigchld_unblocked :
    (Machine.fgStart ⟨0, 5⟩ [5]).run [Move.main, Move.main, Move.main, Move.main]
      = some ⟨Pc.fgWait, ⟨5, 0⟩, false, false, [5], [],
          [Obs.kill (-5) Sig.SIGCONT, Obs.write 359 false, Obs.write 360 false]⟩ := by
  decide

/-- C5: when the child collected is the foreground job and its status is
stopped-by-signal `n`, the Reaper leaves `g_runningPid` absent and
`g_suspendedPid = p` whatever it held before, and prints exactly the one line
`Job (p) stopped by signal n`. -/
theorem C5_stop_moves_foreground_to_stopped (st : Store) (p n : Int)
    (hfg : st.g_runningPid = p) (hp : p > 0) :
    reapOne st p (WaitStatus.stopped n) =
      (⟨0, p⟩, ["Job (" ++ toString p ++ ") stopped by signal " ++ toString n ++ "\n"]) ∧
    sigchld_handler [(p, WaitStatus.stopped n)] st =
      (⟨0, p⟩, ["Job (" ++ toString p ++ ") stopped by signal " ++ toString n ++ "\n"]) := by
  subst hfg
  simp [sigchld_handler, reapOne, hp, stoppedMsg]

/-- Witness for C5 on the store with foreground 7 and an older stopped job 3. -/
theorem C5_stop_moves_foreground_to_stopped_witness :
    reapOne ⟨7, 3⟩ 7 (WaitStatus.stopped 20) = (⟨0, 7⟩, ["Job (7) stopped by signal 20\n"]) ∧
    sigchld_handler [(7, WaitStatus.stopped 20)] ⟨7, 3⟩
      = (⟨0, 7⟩, ["Job (7) stopped by signal 20\n"]) :=
  C5_stop_moves_foreground_to_stopped ⟨7, 3⟩ 7 20 rfl (by decide)

/-- C6: for a child collected as exited normally or killed by a signal, the
Reaper sets `g_runningPid` to absent when it equals the child's pid and leaves
it alone otherwise, and does not change `g_suspendedPid`. -/
theorem C6_termination_frame (st : Store) (pid : Int) (status : WaitStatus)
    (hpid : pid > 0)
    (hst : (∃ code, status = WaitStatus.exited code) ∨
           (∃ sig, status = WaitStatus.signaled sig)) :
    (sigchld_handler [(pid, status)] st).1 =
      ⟨if pid = st.g_runningPid then 0 else st.g_runningPid, st.g_suspendedPid⟩ ∧
    (reapOne st pid status).1 =
      ⟨if pid = st.g_runningPid then 0 else st.g_runningPid, st.g_suspendedPid⟩ := by
  have hpos : (0 : Int) < pid := hpid
  rcases hst with ⟨code, rfl⟩ | ⟨sig, rfl⟩ <;>
    by_cases h : pid = st.g_runningPid
  · have h0 : (0 : Int) < st.g_runningPid := h ▸ hpos
    simp [sigchld_handler, reapOne, h, h0]
  · simp [sigchld_handler, reapOne, hpos, h]
  · have h0 : (0 : Int) < st.g_runningPid := h ▸ hpos
    simp [sigchld_handler, reapOne, h, h0]
  · simp [sigchld_handler, reapOne, hpos, h]

/-- Witness for C6: child 5, the stopped job while 9 is in the foreground, is
killed by signal 9. -/
theorem C6_termination_frame_witness :
    (sigchld_handler [(5, WaitStatus.signaled 9)] ⟨9, 5⟩).1 =
      ⟨if (5 : Int) = (9 : Int) then 0 else 9, 5⟩ ∧
    (reapOne ⟨9, 5⟩ 5 (WaitStatus.signaled 9)).1 =
      ⟨if (5 : Int) = (9 : Int) then 0 else 9, 5⟩ :=
  C6_termination_frame ⟨9, 5⟩ 5 (WaitStatus.signaled 9) (by decide) (Or.inr ⟨9, rfl⟩)

/-- C7, evaluated on the code: `fg` is typed with child 5 as the stopped job.
When child 5 exits after the SIGCONT and its SIGCHLD is delivered before line
361, the Reaper vacates `g_runningPid` and line 361 calls `waitfg (0)`, not
`waitfg (5)`.  When child 5 stops again and its SIGCHLD is delivered before
line 360, the Reaper records it in `g_suspendedPid` and line 360 erases it
again, and `waitfg (0)` is called as well.  On the machine the shell ends
suspended in `waitfg (0)` with `g_runningPid = 0`. -/
theorem C7_fg_waits_for_pid_zero :
    builtin_command "fg" ⟨0, 5⟩ ⟨[], [], [], [(5, WaitStatus.exited 0)]⟩ =
      ⟨⟨0, 0⟩, [Effect.kill (-5) Sig.SIGCONT, Effect.waitfg 0], some 1⟩ ∧
    builtin_command "fg" ⟨0, 5⟩ ⟨[], [], [(5, WaitStatus.stopped 20)], []⟩ =
      ⟨⟨0, 0⟩, [Effect.kill (-5) Sig.SIGCONT, Effect.printf "Job (5) stopped by signal 20\n",
                Effect.waitfg 0], some 1⟩ ∧
    (Machine.fgStart ⟨0, 5⟩ [5]).run
      [Move.main, Move.main, Move.main, Move.main, Move.child 5 (WaitStatus.exited 0),
       Move.deliver, Move.main, Move.main, Move.main]
      = some ⟨Pc.inSigsuspend 0, ⟨0, 0⟩, false, false, [], [],
          [Obs.kill (-5) Sig.SIGCONT, Obs.write 359 false, Obs.write 360 false,
           Obs.reaper [], Obs.suspend 0 ⟨0, 0⟩]⟩ := by
  decide

/-- C8: with no stopped job, the `fg` builtin makes no call at all (no `kill`,
no output, no `waitfg`), leaves the store as it was and returns 1, and `eval`
returns without making any call, so no process is spawned. -/
theorem C8_fg_without_stopped_job (st : Store) (h0 : st.g_suspendedPid = 0)
    (args : List String) (bg : Bool) (cmdline : String) (forkResult : Int)
    (errText : String) (execFails : Bool) (reaps : FgReaps) :
    builtin_command "fg" st reaps = ⟨st, [], some 1⟩ ∧
    evalArgs ("fg" :: args) bg cmdline forkResult errText execFails st = ⟨st, [], some 0⟩ := by
  have hb : ∀ r : FgReaps, builtin_command "fg" st r = ⟨st, [], some 1⟩ := by
    intro r
    simp [builtin_command, h0]
  exact ⟨hb reaps, by simp [evalArgs, hb]⟩

/-- Witness for C8: a foreground value is present, no stopped job. -/
theorem C8_fg_without_stopped_job_witness :
    builtin_command "fg" ⟨4, 0⟩ ⟨[], [(4, WaitStatus.exited 0)], [], []⟩
      = ⟨⟨4, 0⟩, [], some 1⟩ ∧
    evalArgs ("fg" :: ["now"]) true "fg now &\n" 77 "" false ⟨4, 0⟩ = ⟨⟨4, 0⟩, [], some 0⟩ :=
  C8_fg_without_stopped_job ⟨4, 0⟩ rfl ["now"] true "fg now &\n" 77 "" false
    ⟨[], [(4, WaitStatus.exited 0)], [], []⟩

/-- C9, evaluated on the code.  With child 5 in the foreground, the test of
line 464 (480) holds; child 5 exits and the Reaper vacates `g_runningPid`
before line 466 (482) reads it again, so the relay calls `kill (0, sig)`: the
target is 0, the process group of the shell itself.  And after child 5 was
killed while stopped and `fg` has put its pid back, the foreground slot names
a child that was reaped, and the relay signals process group 5. -/
theorem C9_relay_kills_group_zero :
    sigint_handler ⟨5, 0⟩ [(5, WaitStatus.exited 0)] = (⟨0, 0⟩, [Effect.kill 0 Sig.SIGINT]) ∧
    sigtstp_handler ⟨5, 0⟩ [(5, WaitStatus.exited 0)] = (⟨0, 0⟩, [Effect.kill 0 Sig.SIGTSTP]) ∧
    World.init.run
      [Event.command ["/bin/sleep", "100"] false 5,
       Event.reap 5 (WaitStatus.stopped 20),
       Event.reap 5 (WaitStatus.signaled 9),
       Event.command ["fg"] false 0]
      = some ⟨⟨5, 0⟩, [], [5], some 5⟩ ∧
    sigint_handler ⟨5, 0⟩ [] = (⟨5, 0⟩, [Effect.kill (-5) Sig.SIGINT]) := by
  decide

/-- C10, evaluated on the code: `waitfg (5)` is entered with child 5 in the
foreground; the loop test holds, child 5 exits and the Reaper vacates
`g_runningPid`, and only then does `waitfg` call `sigsuspend`: the call is
made at a moment when `g_runningPid` is 0, not 5.  This is the window of
C3. -/
theorem C10_suspends_after_foreground_vacated :
    (Machine.mk (Pc.waitTest 5) ⟨5, 0⟩ false false [5] [] []).run
      [Move.main, Move.child 5 (WaitStatus.exited 0), Move.deliver, Move.main]
      = some ⟨Pc.inSigsuspend 5, ⟨0, 0⟩, false, false, [], [],
          [Obs.reaper [], Obs.suspend 5 ⟨0, 0⟩]⟩ := by
  decide

/-- C11: when the child collected is not the foreground job, the Reaper leaves
the store as it was; it prints nothing if the child exited normally and
exactly the one line `Job (pid) terminated by signal n` if the child was
killed by signal `n`. -/
theorem C11_background_child_reaped (st : Store) (pid : Int)
    (hpos : pid > 0) (hne : pid ≠ st.g_runningPid) (code n : Int) :
    sigchld_handler [(pid, WaitStatus.exited code)] st = (st, []) ∧
    sigchld_handler [(pid, WaitStatus.signaled n)] st =
      (st, ["Job (" ++ toString pid ++ ") terminated by signal " ++ toString n ++ "\n"]) := by
  have h0 : (0 : Int) < pid := hpos
  simp [sigchld_handler, reapOne, h0, hne, terminatedMsg]

/-- Witness for C11: child 8 while 3 is in the foreground. -/
theorem C11_background_child_reaped_witness :
    sigchld_handler [(8, WaitStatus.exited 0)] ⟨3, 0⟩ = (⟨3, 0⟩, []) ∧
    sigchld_handler [(8, WaitStatus.signaled 15)] ⟨3, 0⟩
      = (⟨3, 0⟩, ["Job (8) terminated by signal 15\n"]) :=
  C11_background_child_reaped ⟨3, 0⟩ 8 (by decide) (by decide) 0 15

/-- C12 fails as stated: child 7 is neither the foreground job 3 nor the
stopped job 4, and when it is killed by signal 9 the Reaper prints a
notification for it. -/
theorem C12_untracked_child_is_announced :
    (7 : Int) ≠ (Store.mk 3 4).g_runningPid ∧ (7 : Int) ≠ (Store.mk 3 4).g_suspendedPid ∧
    sigchld_handler [(7, WaitStatus.signaled 9)] ⟨3, 4⟩
      = (⟨3, 4⟩, ["Job (7) terminated by signal 9\n"]) ∧
    (sigchld_handler [(7, WaitStatus.signaled 9)] ⟨3, 4⟩).2 ≠ [] := by
  decide

/-- C12 as amended: for a collected child that is neither the foreground job
nor the stopped job the Reaper leaves the store as it was; it prints nothing
when the child exited normally, the one line `Job (pid) terminated by signal
n` when it was killed by signal `n`, and the one line `Job (pid) stopped by
signal n` when it was stopped by signal `n`. -/
theorem C12_untracked_child_reaped (st : Store) (pid : Int) (hpos : pid > 0)
    (hfg : pid ≠ st.g_runningPid) (hst : pid ≠ st.g_suspendedPid) (code n m : Int) :
    sigchld_handler [(pid, WaitStatus.exited code)] st = (st, []) ∧
    sigchld_handler [(pid, WaitStatus.signaled n)] st =
      (st, ["Job (" ++ toString pid ++ ") terminated by signal " ++ toString n ++ "\n"]) ∧
    sigchld_handler [(pid, WaitStatus.stopped m)] st =
      (st, ["Job (" ++ toString pid ++ ") stopped by signal " ++ toString m ++ "\n"]) := by
  have h0 : (0 : Int) < pid := hpos
  have _ := hst
  simp [sigchld_handler, reapOne, h0, hfg, terminatedMsg, stoppedMsg]

/-- Witness for the amended C12: child 7 with 3 in the foreground and 4
stopped. -/
theorem C12_untracked_child_reaped_witness :
    sigchld_handler [(7, WaitStatus.exited 1)] ⟨3, 4⟩ = (⟨3, 4⟩, []) ∧
    sigchld_handler [(7, WaitStatus.signaled 9)] ⟨3, 4⟩
      = (⟨3, 4⟩, ["Job (7) terminated by signal 9\n"]) ∧
    sigchld_handler [(7, WaitStatus.stopped 20)] ⟨3, 4⟩
      = (⟨3, 4⟩, ["Job (7) stopped by signal 20\n"]) :=
  C12_untracked_child_reaped ⟨3, 4⟩ 7 (by decide) (by decide) (by decide) 1 9 20

/-- C13: for a command line that `parseline` marks as background and whose
first argument is no builtin, `eval` in the shell (`fork` returned `p > 0`)
blocks SIGCHLD, forks, restores the mask, prints `(p) ` followed by the
command line as typed, and calls `setpgid`; it makes no other call, in
particular no `waitfg`, leaves the store as it was, and the final signal mask
is the one `eval` was entered with. -/
theorem C13_background_launch (cmdline : String) (argv0 : List Char)
    (rest : List (List Char)) (p : Int) (errText : String) (execFails : Bool) (st : Store)
    (hparse : parseline cmdline.toList = some (argv0 :: rest, true))
    (hquit : String.mk argv0 ≠ "quit") (hfg : String.mk argv0 ≠ "fg") (hp : p > 0) :
    eval cmdline p errText execFails st =
      some ⟨st, [Effect.blockSigchld, Effect.fork p, Effect.restoreMask,
                 Effect.printf ("(" ++ toString p ++ ") " ++ cmdline),
                 Effect.setpgid p p], some 0⟩ ∧
    (∀ r, eval cmdline p errText execFails st = some r →
      hasWaitfg r.effects = false ∧
      ∀ mask prev : Bool, (maskAfter mask prev r.effects).1 = mask) := by
  have hnn : ¬ p < 0 := by omega
  have hnz : ¬ p = 0 := by omega
  have he : eval cmdline p errText execFails st =
      some ⟨st, [Effect.blockSigchld, Effect.fork p, Effect.restoreMask,
                 Effect.printf ("(" ++ toString p ++ ") " ++ cmdline),
                 Effect.setpgid p p], some 0⟩ := by
    unfold eval
    rw [hparse]
    simp [evalArgs, builtin_command, hquit, hfg, Fork, hnn, hnz]
  refine ⟨he, ?_⟩
  intro r hr
  rw [he] at hr
  cases hr
  refine ⟨rfl, ?_⟩
  intro mask prev
  simp [maskAfter]

/-- Witness for C13: `/bin/sleep 100 &` with child pid 7. -/
theorem C13_background_launch_witness :
    eval "/bin/sleep 100 &\n" 7 "" false ⟨0, 3⟩ =
      some ⟨⟨0, 3⟩, [Effect.blockSigchld, Effect.fork 7, Effect.restoreMask,
                 Effect.printf ("(" ++ toString (7 : Int) ++ ") " ++ "/bin/sleep 100 &\n"),
                 Effect.setpgid 7 7], some 0⟩ ∧
    (∀ r, eval "/bin/sleep 100 &\n" 7 "" false ⟨0, 3⟩ = some r →
      hasWaitfg r.effects = false ∧
      ∀ mask prev : Bool, (maskAfter mask prev r.effects).1 = mask) :=
  C13_background_launch "/bin/sleep 100 &\n" "/bin/sleep".toList ["100".toList] 7 "" false
    ⟨0, 3⟩ (by decide) (by decide) (by decide) (by decide)

/-- C14: on a command line of spaces followed by the newline `parseline` stores
no argument, and `eval` returns with no call made (no process, no signal, no
output, no change of the signal mask) and the store as it was. -/
theorem C14_blank_line (n : Nat) (forkResult : Int) (errText : String)
    (execFails : Bool) (st : Store) :
    parseline (List.replicate n ' ' ++ [newline]) = some ([], true) ∧
    eval (String.mk (List.replicate n ' ' ++ [newline])) forkResult errText execFails st
      = some ⟨st, [], some 0⟩ := by
  have hp : parseline (List.replicate n ' ' ++ [newline]) = some ([], true) := by
    have hc : lineCopy (List.replicate n ' ' ++ [newline]) = List.replicate (n + 1) ' ' := by
      simp [lineCopy, List.replicate_succ']
    simp [parseline, parselineScan, hc, scanFrom, skipSpaces_replicate, findDelim, strchr,
      MAXARGS]
  exact ⟨hp, by simp [eval, hp, evalArgs]⟩

set_option maxRecDepth 100000 in
/-- C21, evaluated on the code: a newline-terminated command line of 256
characters, fewer than `MAXLINE`, holds 128 arguments; `parseline` stores them
at `argv[0]` to `argv[127]` and then writes the terminating NULL at
`argv[128]`, which is index `MAXARGS`, one past the end of the array, so that
the result of `parseline` is undefined. -/
theorem C21_argv_written_at_maxargs :
    manyArgsLine.length = 256 ∧ manyArgsLine.length < MAXLINE ∧
    manyArgsLine.getLast? = some newline ∧
    (parselineScan manyArgsLine).map (fun r => (r.1.length, r.2)) = some (128, false) ∧
    (argvWrites manyArgsLine).map (fun w => decide (MAXARGS ∈ w)) = some true ∧
    parseline manyArgsLine = none := by
  decide

end Tsh

namespace CQueue

/-! ## Supporting lemmas -/

theorem Heap.read_release_same (h : Heap) (a : Nat) : (h.release a).read a = none := by
  induction h with
  | nil => rfl
  | cons x xs ih =>
    obtain ⟨b, n⟩ := x
    by_cases hb : b = a
    · simp [Heap.release, hb, ih]
    · simp [Heap.release, Heap.read, hb, ih]

theorem Heap.read_release_ne (h : Heap) (a b : Nat) (hne : b ≠ a) :
    (h.release a).read b = h.read b := by
  induction h with
  | nil => rfl
  | cons x xs ih =>
    obtain ⟨c, n⟩ := x
    by_cases hc : c = a
    · subst hc
      have hcb : ¬ c = b := fun e => hne e.symm
      simp only [Heap.release, Heap.read, if_true, hcb, if_false]
      exact ih
    · by_cases hcb : c = b
      · subst hcb
        simp only [Heap.release, hc, if_false, Heap.read, if_true]
      · simp only [Heap.release, hc, if_false, Heap.read, hcb]
        exact ih

theorem Heap.read_write_same (h : Heap) (a : Nat) (n : list_ele_t) :
    (h.write a n).read a = some n := by
  simp [Heap.write, Heap.read]

theorem Heap.read_write_ne (h : Heap) (a b : Nat) (n : list_ele_t) (hne : b ≠ a) :
    (h.write a n).read b = h.read b := by
  have : ¬ a = b := fun e => hne e.symm
  simp [Heap.write, Heap.read, this, Heap.read_release_ne h a b hne]

theorem Heap.mem_keys_of_read (h : Heap) (a : Nat) (n : list_ele_t) (hr : h.read a = some n) :
    a ∈ List.map Prod.fst h := by
  induction h with
  | nil => simp [Heap.read] at hr
  | cons x xs ih =>
    obtain ⟨b, m⟩ := x
    by_cases hb : b = a
    · simp [hb]
    · simp only [Heap.read, hb, if_false] at hr
      exact List.mem_cons_of_mem _ (ih hr)

theorem Seg.read_some {h : Heap} {cells : List (Nat × Int)} {e : Option Nat}
    (hs : Seg h cells e) {c : Nat × Int} (hc : c ∈ cells) : ∃ n, h.read c.1 = some n := by
  induction cells with
  | nil => simp at hc
  | cons x xs ih =>
    rcases List.mem_cons.mp hc with rfl | hm
    · exact ⟨_, hs.1⟩
    · exact ih hs.2 hm

theorem Seg.not_mem_of_read_none {h : Heap} {cells : List (Nat × Int)} {e : Option Nat}
    (hs : Seg h cells e) {a : Nat} (ha : h.read a = none) : a ∉ cells.map Prod.fst := by
  intro hm
  obtain ⟨c, hc, rfl⟩ := List.mem_map.mp hm
  obtain ⟨n, hn⟩ := hs.read_some hc
  rw [ha] at hn
  cases hn

theorem Seg.write_frame {h : Heap} {cells : List (Nat × Int)} {e : Option Nat}
    (hs : Seg h cells e) (a : Nat) (n : list_ele_t) (ha : a ∉ cells.map Prod.fst) :
    Seg (h.write a n) cells e := by
  induction cells with
  | nil => trivial
  | cons x xs ih =>
    have hx : x.1 ≠ a := fun e => ha (by simp [← e])
    have hxs : a ∉ xs.map Prod.fst := fun e => ha (by simp at e ⊢; exact Or.inr e)
    exact ⟨by rw [Heap.read_write_ne _ _ _ _ hx]; exact hs.1, ih hs.2 hxs⟩

theorem Seg.release_frame {h : Heap} {cells : List (Nat × Int)} {e : Option Nat}
    (hs : Seg h cells e) (a : Nat) (ha : a ∉ cells.map Prod.fst) :
    Seg (h.release a) cells e := by
  induction cells with
  | nil => trivial
  | cons x xs ih =>
    have hx : x.1 ≠ a := fun e => ha (by simp [← e])
    have hxs : a ∉ xs.map Prod.fst := fun e => ha (by simp at e ⊢; exact Or.inr e)
    exact ⟨by rw [Heap.read_release_ne _ _ _ hx]; exact hs.1, ih hs.2 hxs⟩

theorem firstPtr_append (l1 l2 : List (Nat × Int)) (e : Option Nat) :
    firstPtr (l1 ++ l2) e = firstPtr l1 (firstPtr l2 e) := by
  cases l1 <;> rfl

theorem Seg.append_iff (h : Heap) (l1 l2 : List (Nat × Int)) (e : Option Nat) :
    Seg h (l1 ++ l2) e ↔ Seg h l1 (firstPtr l2 e) ∧ Seg h l2 e := by
  induction l1 with
  | nil => simp [Seg]
  | cons x xs ih =>
    simp only [List.cons_append, Seg, List.append_eq, ih, firstPtr_append, and_assoc]

theorem Seg.length_le {h : Heap} {cells : List (Nat × Int)} {e : Option Nat}
    (hs : Seg h cells e) (hnd : (cells.map Prod.fst).Nodup) : cells.length ≤ h.length := by
  have hsub : cells.map Prod.fst ⊆ List.map Prod.fst h := by
    intro a ha
    obtain ⟨c, hc, rfl⟩ := List.mem_map.mp ha
    obtain ⟨n, hn⟩ := hs.read_some hc
    exact Heap.mem_keys_of_read h _ n hn
  have := (List.subperm_of_subset hnd hsub).length_le
  simpa using this

theorem walk_of_seg (h : Heap) (cells : List (Nat × Int)) (fuel : Nat)
    (hs : Seg h cells none) (hf : cells.length ≤ fuel) :
    walk fuel h (firstPtr cells none) = some (cells.map Prod.snd) ∧
    walkAddrs fuel h (firstPtr cells none) = some (cells.map Prod.fst) := by
  induction cells generalizing fuel with
  | nil => cases fuel <;> simp [firstPtr, walk, walkAddrs]
  | cons x xs ih =>
    cases fuel with
    | zero => simp at hf
    | succ f =>
      have hf1 : xs.length ≤ f := by simpa using hf
      have hrec := ih f hs.2 hf1
      have hfp : firstPtr (x :: xs) none = some x.1 := rfl
      rw [hfp]
      simp only [walk, walkAddrs, hs.1, hrec.1, hrec.2, List.map_cons, and_self]

theorem WF.toList {s : QState} {cells : List (Nat × Int)} (hw : WF s cells) :
    s.toList = some (cells.map Prod.snd) ∧ s.addrs = some (cells.map Prod.fst) := by
  have hl := hw.seg.length_le hw.nodup
  have := walk_of_seg s.heap cells s.heap.length hw.seg hl
  simp only [QState.toList, QState.addrs, hw.head]
  exact this

theorem getLast?_cons_of_ne (x : Nat × Int) (xs : List (Nat × Int)) (h : xs ≠ []) :
    (x :: xs).getLast? = xs.getLast? := by
  cases xs with
  | nil => exact absurd rfl h
  | cons y ys => simp [List.getLast?_cons_cons]

theorem WF.size_eq_zero_iff {s : QState} {cells : List (Nat × Int)} (hw : WF s cells) :
    s.q.size = 0 ↔ cells = [] := by
  rw [hw.size]
  cases cells with
  | nil => simp
  | cons x xs => simp; omega

/-- Invariant kept by `q_insert_head`: the new element comes first. -/
theorem WF.insert_head {s : QState} {cells : List (Nat × Int)} (hw : WF s cells)
    (v : Int) (a : Nat) (ha : s.heap.read a = none) :
    ∃ s1 : QState, q_insert_head s.heap (some s.q) v (some a) = some ⟨true, s1.heap, some s1.q⟩ ∧
      WF s1 ((a, v) :: cells) ∧ s1.q.size = s.q.size + 1 ∧ (cells = [] → s1.q.tail = some a) := by
  have hna : a ∉ cells.map Prod.fst := hw.seg.not_mem_of_read_none ha
  by_cases h0 : s.q.size = 0
  · have hc : cells = [] := hw.size_eq_zero_iff.mp h0
    subst hc
    refine ⟨⟨s.heap.write a ⟨v, s.q.head⟩, ⟨some a, some a, s.q.size + 1⟩⟩, ?_, ?_, rfl, fun _ => rfl⟩
    · simp [q_insert_head, h0]
    · refine ⟨rfl, ⟨?_, trivial⟩, by simp, by simp [h0], ?_⟩
      · simp [Heap.read_write_same, hw.head, firstPtr]
      · intro c hc
        simp at hc
        simp [← hc]
  · have hc : cells ≠ [] := fun e => h0 (hw.size_eq_zero_iff.mpr e)
    refine ⟨⟨s.heap.write a ⟨v, s.q.head⟩, ⟨some a, s.q.tail, s.q.size + 1⟩⟩, ?_, ?_, rfl,
      fun e => absurd e hc⟩
    · simp [q_insert_head, h0]
    · refine ⟨rfl, ⟨?_, hw.seg.write_frame a _ hna⟩, ?_, ?_, ?_⟩
      · simp [Heap.read_write_same, hw.head]
      · simpa using ⟨fun x hx => hna (by simpa using ⟨x, hx⟩), hw.nodup⟩
      · simp [hw.size]
      · intro c hcl
        rw [getLast?_cons_of_ne _ _ hc] at hcl
        exact hw.tail c hcl

/-- Invariant kept by `q_insert_tail`: the new element comes last. -/
theorem WF.insert_tail {s : QState} {cells : List (Nat × Int)} (hw : WF s cells)
    (v : Int) (a : Nat) (ha : s.heap.read a = none) :
    ∃ s1 : QState, q_insert_tail s.heap (some s.q) v (some a) = some ⟨true, s1.heap, some s1.q⟩ ∧
      WF s1 (cells ++ [(a, v)]) ∧ s1.q.size = s.q.size + 1 := by
  have hna : a ∉ cells.map Prod.fst := hw.seg.not_mem_of_read_none ha
  by_cases h0 : s.q.size = 0
  · have hc : cells = [] := hw.size_eq_zero_iff.mp h0
    subst hc
    refine ⟨⟨s.heap.write a ⟨v, none⟩, ⟨some a, some a, s.q.size + 1⟩⟩, ?_, ?_, rfl⟩
    · simp [q_insert_tail, h0]
    · refine ⟨rfl, ⟨?_, trivial⟩, by simp, by simp [h0], ?_⟩
      · simp [Heap.read_write_same, firstPtr]
      · intro c hc
        simp at hc
        simp [← hc]
  · have hc : cells ≠ [] := fun e => h0 (hw.size_eq_zero_iff.mpr e)
    obtain ⟨ini, ⟨t, tv⟩, rfl⟩ : ∃ ini c, cells = ini ++ [c] := by
      rcases List.eq_nil_or_concat cells with e | ⟨l, c, e⟩
      · exact absurd e hc
      · exact ⟨l, c, by simpa using e⟩
    have htail : s.q.tail = some t := hw.tail (t, tv) (by simp)
    have hseg := (Seg.append_iff s.heap ini [(t, tv)] none).mp hw.seg
    have hrt : s.heap.read t = some ⟨tv, none⟩ := hseg.2.1
    have hta : t ≠ a := by
      intro e
      rw [e, ha] at hrt
      cases hrt
    have hnd := hw.nodup
    simp only [List.map_append, List.map_cons, List.map_nil] at hnd hna
    have htini : t ∉ ini.map Prod.fst := by
      intro hm
      have := (List.nodup_append.mp hnd).2.2
      exact this hm (by simp)
    have haini : a ∉ ini.map Prod.fst := fun hm => hna (List.mem_append_left _ hm)
    refine ⟨⟨(s.heap.write a ⟨v, none⟩).write t ⟨tv, some a⟩,
      ⟨s.q.head, some a, s.q.size + 1⟩⟩, ?_, ?_, rfl⟩
    · simp [q_insert_tail, h0, htail, Heap.read_write_ne _ _ _ _ hta, hrt]
    · refine ⟨?_, ?_, ?_, ?_, ?_⟩
      · simp only [hw.head]
        cases ini <;> rfl
      · rw [List.append_assoc]
        refine (Seg.append_iff _ ini _ none).mpr ⟨?_, ?_, ?_, trivial⟩
        · exact (hseg.1.write_frame a _ haini).write_frame t _ htini
        · simp [Heap.read_write_same, firstPtr]
        · have : a ≠ t := fun e => hta e.symm
          simp [Heap.read_write_ne _ _ _ _ this, Heap.read_write_same, firstPtr]
      · simp only [List.map_append, List.map_cons, List.map_nil]
        rw [List.nodup_append]
        refine ⟨hnd, by simp, ?_⟩
        intro x hx hx2
        simp at hx2
        subst hx2
        exact hna hx
      · simp [hw.size]
        omega
      · intro c hcl
        simp at hcl
        simp [← hcl]

/-- On an empty queue `q_remove_head` returns false and changes nothing. -/
theorem WF.remove_head_nil {s : QState} (hw : WF s []) (vp : Option Int) :
    q_remove_head s.heap (some s.q) vp = some ⟨false, vp, s.heap, some s.q⟩ := by
  have h0 : s.q.size = 0 := hw.size_eq_zero_iff.mpr rfl
  simp [q_remove_head, h0]

/-- Invariant kept by `q_remove_head` on a non-empty queue: the first element
goes, its value is stored at `*vp`. -/
theorem WF.remove_head_cons {s : QState} {a : Nat} {x : Int} {rest : List (Nat × Int)}
    (hw : WF s ((a, x) :: rest)) (vp : Option Int) :
    ∃ s1 : QState, q_remove_head s.heap (some s.q) vp =
        some ⟨true, vp.map (fun _ => x), s1.heap, some s1.q⟩ ∧
      WF s1 rest ∧ s1.q.size = s.q.size - 1 ∧ s1.heap = s.heap.release a := by
  have h0 : ¬ s.q.size = 0 := fun e => by
    have := hw.size_eq_zero_iff.mp e
    cases this
  have hh : s.q.head = some a := hw.head
  have hr : s.heap.read a = some ⟨x, firstPtr rest none⟩ := hw.seg.1
  have hnd := hw.nodup
  simp only [List.map_cons, List.nodup_cons] at hnd
  refine ⟨⟨s.heap.release a, ⟨firstPtr rest none, s.q.tail, s.q.size - 1⟩⟩, ?_, ?_, rfl, rfl⟩
  · cases vp <;> simp [q_remove_head, h0, hh, hr]
  · refine ⟨rfl, hw.seg.2.release_frame a hnd.1, hnd.2, ?_, ?_⟩
    · simp [hw.size]
    · intro c hcl
      have hne : rest ≠ [] := by
        intro e
        subst e
        simp at hcl
      apply hw.tail c
      rw [getLast?_cons_of_ne _ _ hne]
      exact hcl

/-- The loop of `q_reverse`: with the chain `rest` still ahead and the
reversed chain `done` behind, it ends with the whole chain reversed, on the
same elements with the same values. -/
theorem reverseLoop_spec (rest : List (Nat × Int)) :
    ∀ (done : List (Nat × Int)) (h : Heap) (fuel : Nat),
      Seg h rest none → Seg h done none →
      (rest.map Prod.fst ++ done.map Prod.fst).Nodup → rest.length ≤ fuel →
      ∃ h1, reverseLoop fuel h (firstPtr rest none) (firstPtr done none)
              = some (h1, firstPtr (rest.reverse ++ done) none) ∧
            Seg h1 (rest.reverse ++ done) none ∧
            (∀ b, (h1.read b).map (·.value) = (h.read b).map (·.value)) ∧
            (rest = [] → h1 = h) := by
  induction rest with
  | nil =>
    intro done h fuel _ hd _ _
    refine ⟨h, ?_, by simpa using hd, fun _ => rfl, fun _ => rfl⟩
    cases fuel <;> simp [firstPtr, reverseLoop]
  | cons c rest ih =>
    intro done h fuel hr hd hnd hf
    obtain ⟨a, v⟩ := c
    cases fuel with
    | zero => simp at hf
    | succ f =>
      have hf1 : rest.length ≤ f := by simpa using hf
      have hra : h.read a = some ⟨v, firstPtr rest none⟩ := hr.1
      simp only [List.map_cons, List.cons_append, List.nodup_cons, List.mem_append] at hnd
      have harest : a ∉ rest.map Prod.fst := fun e => hnd.1 (Or.inl e)
      have hadone : a ∉ done.map Prod.fst := fun e => hnd.1 (Or.inr e)
      have hr1 : Seg (h.write a ⟨v, firstPtr done none⟩) rest none :=
        hr.2.write_frame a _ harest
      have hd1 : Seg (h.write a ⟨v, firstPtr done none⟩) ((a, v) :: done) none :=
        ⟨by simp [Heap.read_write_same], hd.write_frame a _ hadone⟩
      have hnd1 : (rest.map Prod.fst ++ ((a, v) :: done).map Prod.fst).Nodup := by
        simp only [List.map_cons]
        rw [List.nodup_middle]
        simpa using hnd
      obtain ⟨h1, hl, hs1, hv1, _⟩ := ih ((a, v) :: done) _ f hr1 hd1 hnd1 hf1
      refine ⟨h1, ?_, ?_, ?_, fun e => by cases e⟩
      · have hfp : firstPtr ((a, v) :: rest) none = some a := rfl
        rw [hfp]
        simp only [reverseLoop, hra]
        have hfp2 : firstPtr ((a, v) :: done) none = some a := rfl
        rw [hfp2] at hl
        rw [hl]
        simp
      · simpa using hs1
      · intro b
        rw [hv1 b]
        by_cases hb : b = a
        · subst hb
          simp [Heap.read_write_same, hra]
        · rw [Heap.read_write_ne _ _ _ _ hb]

/-- Invariant kept by `q_reverse`: the chain is reversed on the same elements,
and `tail` is the old `head`. -/
theorem WF.reverse {s : QState} {cells : List (Nat × Int)} (hw : WF s cells) :
    ∃ s1 : QState, q_reverse s.heap (some s.q) = some ⟨(), s1.heap, some s1.q⟩ ∧
      WF s1 cells.reverse ∧ s1.q.size = s.q.size ∧ s1.q.tail = s.q.head ∧
      (∀ b, (s1.heap.read b).map (·.value) = (s.heap.read b).map (·.value)) ∧
      (cells = [] → s1.heap = s.heap ∧ s1.q.head = s.q.head) := by
  have hl := hw.seg.length_le hw.nodup
  obtain ⟨h1, hloop, hs1, hv1, hnil⟩ :=
    reverseLoop_spec cells [] s.heap s.heap.length hw.seg trivial (by simpa using hw.nodup) hl
  simp only [List.append_nil] at hloop hs1
  have hloop2 : reverseLoop s.heap.length s.heap s.q.head none
      = some (h1, firstPtr cells.reverse none) := by
    rw [hw.head]
    exact hloop
  refine ⟨⟨h1, ⟨firstPtr cells.reverse none, s.q.head, s.q.size⟩⟩, ?_, ?_, rfl, rfl, hv1, ?_⟩
  · simp [q_reverse, hloop2]
  · refine ⟨rfl, hs1, ?_, ?_, ?_⟩
    · rw [List.map_reverse]
      exact List.nodup_reverse.mpr hw.nodup
    · simp [hw.size]
    · intro c hc
      rw [List.getLast?_reverse] at hc
      simp only [hw.head]
      cases cells with
      | nil => simp at hc
      | cons x xs =>
        simp at hc
        simp [firstPtr, hc]
  · intro e
    subst e
    exact ⟨hnil rfl, by simp [hw.head, firstPtr]⟩

/-- Every call keeps the invariant. -/
theorem WF.step {s s1 : QState} {cells : List (Nat × Int)} (hw : WF s cells) (op : Op)
    (hstep : s.step op = some s1) : ∃ cells1, WF s1 cells1 := by
  cases op with
  | insert_head v m =>
    cases m with
    | none =>
      simp [QState.step, Heap.mayAlloc, q_insert_head, Ret.state] at hstep
      subst hstep
      exact ⟨cells, hw⟩
    | some a =>
      by_cases ha : s.heap.read a = none
      · obtain ⟨s2, h2, hw2, _⟩ := hw.insert_head v a ha
        simp [QState.step, Heap.mayAlloc, ha, h2, Ret.state] at hstep
        subst hstep
        exact ⟨_, hw2⟩
      · simp [QState.step, Heap.mayAlloc, ha] at hstep
  | insert_tail v m =>
    cases m with
    | none =>
      simp [QState.step, Heap.mayAlloc, q_insert_tail, Ret.state] at hstep
      subst hstep
      exact ⟨cells, hw⟩
    | some a =>
      by_cases ha : s.heap.read a = none
      · obtain ⟨s2, h2, hw2, _⟩ := hw.insert_tail v a ha
        simp [QState.step, Heap.mayAlloc, ha, h2, Ret.state] at hstep
        subst hstep
        exact ⟨_, hw2⟩
      · simp [QState.step, Heap.mayAlloc, ha] at hstep
  | remove_head vp =>
    cases cells with
    | nil =>
      simp [QState.step, hw.remove_head_nil vp] at hstep
      subst hstep
      exact ⟨[], hw⟩
    | cons c rest =>
      obtain ⟨a, x⟩ := c
      obtain ⟨s2, h2, hw2, _⟩ := hw.remove_head_cons vp
      simp [QState.step, h2] at hstep
      subst hstep
      exact ⟨_, hw2⟩
  | reverse =>
    obtain ⟨s2, h2, hw2, _⟩ := hw.reverse
    simp [QState.step, h2, Ret.state] at hstep
    subst hstep
    exact ⟨_, hw2⟩

theorem WF.init : WF QState.init [] :=
  ⟨rfl, trivial, by simp, rfl, by simp⟩

/-- Every queue built from `q_new` by the four operations satisfies the
invariant for some chain. -/
theorem WF.of_run (ops : List Op) : ∀ (s0 s : QState) (cells0 : List (Nat × Int)),
    WF s0 cells0 → s0.run ops = some s → ∃ cells, WF s cells := by
  induction ops with
  | nil =>
    intro s0 s cells0 hw h
    simp [QState.run] at h
    subst h
    exact ⟨_, hw⟩
  | cons op rest ih =>
    intro s0 s cells0 hw h
    simp only [QState.run] at h
    cases hs : s0.step op with
    | none => simp [hs] at h
    | some s1 =>
      simp only [hs] at h
      obtain ⟨cells1, hw1⟩ := hw.step op hs
      exact ih s1 s cells1 hw1 h

theorem QState.run_append (ops : List Op) (op : Op) : ∀ (s0 s s1 : QState),
    s0.run ops = some s → s.step op = some s1 → s0.run (ops ++ [op]) = some s1 := by
  induction ops with
  | nil =>
    intro s0 s s1 h hs
    simp [QState.run] at h
    subst h
    simp [QState.run, hs]
  | cons o rest ih =>
    intro s0 s s1 h hs
    simp only [QState.run, List.cons_append] at h ⊢
    cases h0 : s0.step o with
    | none => simp [h0] at h
    | some s2 =>
      simp only [h0] at h ⊢
      exact ih s2 s s1 h hs

theorem step_remove_head {s s1 : QState} {vp vp1 : Option Int} {b : Bool}
    (h : q_remove_head s.heap (some s.q) vp = some ⟨b, vp1, s1.heap, some s1.q⟩) :
    s.step (Op.remove_head vp) = some s1 := by
  simp [QState.step, h]

theorem step_reverse {s s1 : QState}
    (h : q_reverse s.heap (some s.q) = some ⟨(), s1.heap, some s1.q⟩) :
    s.step Op.reverse = some s1 := by
  simp [QState.step, h, Ret.state]

/-! ## Theorems -/

/-- C18: on a queue built by the operations that holds `xs`, `q_remove_head`
returns false and changes nothing when `xs` is empty; otherwise it returns
true, stores the first element of `xs` at `*vp` when `vp` is not NULL, and
leaves the queue holding the rest of `xs` in order with `q_size` one smaller.
On a NULL queue it returns false and changes nothing. -/
theorem C18_remove_head (ops : List Op) (s : QState) (vp : Option Int)
    (hreach : QState.init.run ops = some s) :
    ∃ xs, s.toList = some xs ∧ q_size (some s.q) = xs.length ∧
      (match xs with
       | [] => q_remove_head s.heap (some s.q) vp = some ⟨false, vp, s.heap, some s.q⟩
       | x :: rest =>
         ∃ s1, q_remove_head s.heap (some s.q) vp
                 = some ⟨true, vp.map (fun _ => x), s1.heap, some s1.q⟩ ∧
               s1.toList = some rest ∧
               q_size (some s1.q) = q_size (some s.q) - 1 ∧
               QState.init.run (ops ++ [Op.remove_head vp]) = some s1) ∧
      ∀ h : Heap, q_remove_head h none vp = some ⟨false, vp, h, none⟩ := by
  obtain ⟨cells, hw⟩ := WF.of_run ops _ _ _ WF.init hreach
  refine ⟨cells.map Prod.snd, hw.toList.1, by simp [q_size, hw.size], ?_, fun h => rfl⟩
  cases cells with
  | nil => exact hw.remove_head_nil vp
  | cons c rest =>
    obtain ⟨a, x⟩ := c
    obtain ⟨s1, h1, hw1, hsz, _⟩ := hw.remove_head_cons vp
    exact ⟨s1, h1, hw1.toList.1, hsz,
      QState.run_append ops _ _ s s1 hreach (step_remove_head h1)⟩

/-- Witness for C18: the queue holding 7, 8 after a reversal. -/
theorem C18_remove_head_witness :
    ∃ xs, (QState.mk [(10, ⟨7, some 11⟩), (11, ⟨8, none⟩)] ⟨some 10, some 11, 2⟩).toList
        = some xs ∧
      q_size (some (QState.mk [(10, ⟨7, some 11⟩), (11, ⟨8, none⟩)] ⟨some 10, some 11, 2⟩).q)
        = xs.length ∧
      (match xs with
       | [] => q_remove_head
            (QState.mk [(10, ⟨7, some 11⟩), (11, ⟨8, none⟩)] ⟨some 10, some 11, 2⟩).heap
            (some (QState.mk [(10, ⟨7, some 11⟩), (11, ⟨8, none⟩)] ⟨some 10, some 11, 2⟩).q)
            (some 0)
          = some ⟨false, some 0,
              (QState.mk [(10, ⟨7, some 11⟩), (11, ⟨8, none⟩)] ⟨some 10, some 11, 2⟩).heap,
              some (QState.mk [(10, ⟨7, some 11⟩), (11, ⟨8, none⟩)] ⟨some 10, some 11, 2⟩).q⟩
       | x :: rest =>
         ∃ s1, q_remove_head
                 (QState.mk [(10, ⟨7, some 11⟩), (11, ⟨8, none⟩)] ⟨some 10, some 11, 2⟩).heap
                 (some (QState.mk [(10, ⟨7, some 11⟩), (11, ⟨8, none⟩)]
                   ⟨some 10, some 11, 2⟩).q)
                 (some 0)
                 = some ⟨true, (some (0 : Int)).map (fun _ => x), s1.heap, some s1.q⟩ ∧
               s1.toList = some rest ∧
               q_size (some s1.q)
                 = q_size (some (QState.mk [(10, ⟨7, some 11⟩), (11, ⟨8, none⟩)]
                     ⟨some 10, some 11, 2⟩).q) - 1 ∧
               QState.init.run ([Op.insert_head 7 (some 10), Op.insert_head 8 (some 11),
                 Op.reverse] ++ [Op.remove_head (some 0)]) = some s1) ∧
      ∀ h : Heap, q_remove_head h none (some 0) = some ⟨false, some 0, h, none⟩ :=
  C18_remove_head [Op.insert_head 7 (some 10), Op.insert_head 8 (some 11), Op.reverse]
    ⟨[(10, ⟨7, some 11⟩), (11, ⟨8, none⟩)], ⟨some 10, some 11, 2⟩⟩ (some 0) (by decide)

/-- C19 fails as stated: on the queue emptied by `q_remove_head`, whose `tail`
still holds the address 10 of the freed element, `q_reverse` is not a no-op:
it stores NULL in `tail`. -/
theorem C19_reverse_rewrites_tail_of_emptied_queue :
    QState.init.run emptiedOps = some emptiedState ∧
    emptiedState.toList = some [] ∧
    emptiedState.q = ⟨none, some 10, 0⟩ ∧
    q_reverse emptiedState.heap (some emptiedState.q) = some ⟨(), [], some ⟨none, none, 0⟩⟩ ∧
    q_reverse emptiedState.heap (some emptiedState.q)
      ≠ some ⟨(), emptiedState.heap, some emptiedState.q⟩ := by
  decide

/-- C19 as amended: on a queue built by the operations that holds `xs` on the
elements at addresses `addrs`, `q_reverse` leaves it holding the reverse of
`xs` on the same elements in reverse order, no element allocated, freed or
changed in value, with `q_size` unchanged and `tail` at the new last element;
the result is again such a queue, so that a following `q_insert_tail` appends
to the reversed sequence and a following `q_remove_head` removes its first
element.  On an empty queue the heap, `head` and `size` stay as they were and
`tail` becomes NULL, and on a NULL queue nothing happens. -/
theorem C19_reverse (ops : List Op) (s : QState) (hreach : QState.init.run ops = some s) :
    ∃ xs addrs s1, s.toList = some xs ∧ s.addrs = some addrs ∧
      q_reverse s.heap (some s.q) = some ⟨(), s1.heap, some s1.q⟩ ∧
      s1.toList = some xs.reverse ∧ s1.addrs = some addrs.reverse ∧
      q_size (some s1.q) = q_size (some s.q) ∧
      (∀ b, (s1.heap.read b).map (·.value) = (s.heap.read b).map (·.value)) ∧
      s1.q.tail = addrs.reverse.getLast? ∧
      QState.init.run (ops ++ [Op.reverse]) = some s1 ∧
      (∀ (v : Int) (a : Nat), s1.heap.read a = none →
        ∃ s2 : QState, q_insert_tail s1.heap (some s1.q) v (some a) = some ⟨true, s2.heap, some s2.q⟩ ∧
          s2.toList = some (xs.reverse ++ [v])) ∧
      (∀ (vp : Option Int) (x : Int) (rest : List Int), xs.reverse = x :: rest →
        ∃ s2 : QState, q_remove_head s1.heap (some s1.q) vp
                = some ⟨true, vp.map (fun _ => x), s2.heap, some s2.q⟩ ∧
          s2.toList = some rest) ∧
      (xs = [] → s1.heap = s.heap ∧ s1.q.head = s.q.head ∧ s1.q.size = s.q.size ∧
        s1.q.tail = none) ∧
      ∀ h : Heap, q_reverse h none = some ⟨(), h, none⟩ := by
  obtain ⟨cells, hw⟩ := WF.of_run ops _ _ _ WF.init hreach
  obtain ⟨s1, h1, hw1, hsz, htl, hval, hnil⟩ := hw.reverse
  refine ⟨cells.map Prod.snd, cells.map Prod.fst, s1, hw.toList.1, hw.toList.2, h1, ?_, ?_,
    by simp [q_size, hsz], hval, ?_,
    QState.run_append ops _ _ s s1 hreach (step_reverse h1), ?_, ?_, ?_, fun h => rfl⟩
  · simpa using hw1.toList.1
  · simpa using hw1.toList.2
  · rw [htl, hw.head, List.getLast?_reverse]
    cases cells <;> simp [firstPtr]
  · intro v a ha
    obtain ⟨s2, h2, hw2, _⟩ := hw1.insert_tail v a ha
    exact ⟨s2, h2, by simpa using hw2.toList.1⟩
  · intro vp x rest hx
    rw [← List.map_reverse] at hx
    cases hc : cells.reverse with
    | nil => simp [hc] at hx
    | cons c cs =>
      obtain ⟨a, y⟩ := c
      rw [hc] at hw1 hx
      simp only [List.map_cons, List.cons.injEq] at hx
      obtain ⟨s2, h2, hw2, _⟩ := hw1.remove_head_cons vp
      refine ⟨s2, ?_, ?_⟩
      · rw [h2, hx.1]
      · rw [hw2.toList.1, hx.2]
  · intro hx
    have hc : cells = [] := by simpa using hx
    refine ⟨(hnil hc).1, (hnil hc).2, hsz, ?_⟩
    rw [htl, hw.head, hc]
    rfl

/-- Witness for C19: the queue 1, 2, 3. -/
theorem C19_reverse_witness :
    ∃ xs addrs s1, builtState.toList = some xs ∧ builtState.addrs = some addrs ∧
      q_reverse builtState.heap (some builtState.q) = some ⟨(), s1.heap, some s1.q⟩ ∧
      s1.toList = some xs.reverse ∧ s1.addrs = some addrs.reverse ∧
      q_size (some s1.q) = q_size (some builtState.q) ∧
      (∀ b, (s1.heap.read b).map (·.value) = (builtState.heap.read b).map (·.value)) ∧
      s1.q.tail = addrs.reverse.getLast? ∧
      QState.init.run (builtOps ++ [Op.reverse]) = some s1 ∧
      (∀ (v : Int) (a : Nat), s1.heap.read a = none →
        ∃ s2 : QState, q_insert_tail s1.heap (some s1.q) v (some a)
            = some ⟨true, s2.heap, some s2.q⟩ ∧
          s2.toList = some (xs.reverse ++ [v])) ∧
      (∀ (vp : Option Int) (x : Int) (rest : List Int), xs.reverse = x :: rest →
        ∃ s2 : QState, q_remove_head s1.heap (some s1.q) vp
                = some ⟨true, vp.map (fun _ => x), s2.heap, some s2.q⟩ ∧
          s2.toList = some rest) ∧
      (xs = [] → s1.heap = builtState.heap ∧ s1.q.head = builtState.q.head ∧
        s1.q.size = builtState.q.size ∧ s1.q.tail = none) ∧
      ∀ h : Heap, q_reverse h none = some ⟨(), h, none⟩ :=
  C19_reverse builtOps builtState (by decide)

end CQueue
